import Mathlib

/-!
Shallow embedding of `linq.hpp`, the lazy sequence library.

The C++ header builds sequences (`enumerable`) out of a pair of cursors
(`_begin`, `_end`) and a family of adaptor cursors wrapping an inner cursor.

Embedding conventions.

* A cursor type is a Lean type `I`; the three operations the header uses on it
  (`operator++`, `operator*`, `operator==`) are collected in `IteratorOps`.
  `operator!=` is always the negation of `operator==` in the header.
* Advancing or dereferencing a past-the-end container iterator is undefined
  behaviour in C++; it is modelled as the error `Error.undefinedBehaviour`.
* The two `std::out_of_range` exceptions the header throws are told apart by
  their message: `Error.emptyCollection` and `Error.indexOutOfRange`.
* Every `for`/`while` loop of the header is a recursive function on a fuel
  counter; running out of fuel is the error `Error.outOfFuel`.  Theorems about
  results are stated for every fuel above an explicit bound.
* `std::size_t` counters are natural numbers: they count traversal steps and
  stay below the length of the traversed container.
-/

namespace linq

/-- Ways in which a call into the header can fail to produce a value. -/
inductive Error where
  /-- `std::out_of_range( "failed to get a value from an empty collection!" )` -/
  | emptyCollection
  /-- `std::out_of_range( "argument out of range: index" )` -/
  | indexOutOfRange
  /-- Dereferencing or advancing a container iterator that is past the end. -/
  | undefinedBehaviour
  /-- The loop bound of the model was exhausted. -/
  | outOfFuel
  deriving DecidableEq, Repr

/-- Result of running a piece of the header. -/
abbrev Res (α : Type) := Except Error α

/-- Operations the header requires of a cursor type `I` with value type `α`. -/
structure IteratorOps (I α : Type) where
  /-- `operator++` (prefix). -/
  inc : I → Res I
  /-- `operator*`. -/
  deref : I → Res α
  /-- `operator==`. -/
  eq : I → I → Bool

/-- `Container::const_iterator` of a sequence container holding `l`: a position
    `0 ≤ p ≤ l.length`, where `l.length` is the past-the-end position. -/
def const_iterator {α : Type} (l : List α) : IteratorOps Nat α where
  inc := fun p => if p < l.length then .ok (p + 1) else .error .undefinedBehaviour
  deref := fun p =>
    match l.get? p with
    | some v => .ok v
    | none => .error .undefinedBehaviour
  eq := fun p q => p == q

/-- `template< typename Iterator > class enumerable`: the pair `_begin`, `_end`
    together with the operations of its cursor type. -/
structure enumerable (I α : Type) where
  ops : IteratorOps I α
  _begin : I
  _end : I

/-- `from( const Container & container )`. -/
def from_container {α : Type} (container : List α) : enumerable Nat α :=
  { ops := const_iterator container, _begin := 0, _end := container.length }

/-- `from( Iterator begin, Iterator end )`. -/
def from_iterators {I α : Type} (ops : IteratorOps I α) (b e : I) : enumerable I α :=
  { ops := ops, _begin := b, _end := e }

/-- `enumerable::empty`. -/
def enumerable.empty {I α : Type} (S : enumerable I α) : Bool :=
  S.ops.eq S._begin S._end

/-- Loop of `enumerable::count`:
    `for( auto it = _begin; it != _end; ++it, ++sz );`. -/
def count_loop {I α : Type} (ops : IteratorOps I α) (e : I) : Nat → I → Nat → Res Nat
  | 0, _, _ => .error .outOfFuel
  | fuel + 1, it, sz =>
    if ops.eq it e then .ok sz
    else do
      let it1 ← ops.inc it
      count_loop ops e fuel it1 (sz + 1)

/-- `enumerable::count`. -/
def enumerable.count {I α : Type} (S : enumerable I α) (fuel : Nat) : Res Nat :=
  count_loop S.ops S._end fuel S._begin 0

/-- `enumerable::first`. -/
def enumerable.first {I α : Type} (S : enumerable I α) : Res α :=
  if S.empty then .error .emptyCollection else S.ops.deref S._begin

/-- `enumerable::first_or_default`. -/
def enumerable.first_or_default {I α : Type} (S : enumerable I α) (value : α) : Res α :=
  if S.empty then .ok value else S.ops.deref S._begin

/-- Loop shared by `last` and `last_or_default`:
    `for( auto it = _begin; it != _end; ++it ) tmp = it;`. -/
def last_loop {I α : Type} (ops : IteratorOps I α) (e : I) : Nat → I → I → Res I
  | 0, _, _ => .error .outOfFuel
  | fuel + 1, it, tmp =>
    if ops.eq it e then .ok tmp
    else do
      let it1 ← ops.inc it
      last_loop ops e fuel it1 it

/-- `enumerable::last`. -/
def enumerable.last {I α : Type} (S : enumerable I α) (fuel : Nat) : Res α :=
  if S.empty then .error .emptyCollection
  else do
    let tmp ← last_loop S.ops S._end fuel S._begin S._begin
    S.ops.deref tmp

/-- `enumerable::last_or_default`. -/
def enumerable.last_or_default {I α : Type} (S : enumerable I α) (value : α) (fuel : Nat) :
    Res α :=
  if S.empty then .ok value
  else do
    let tmp ← last_loop S.ops S._end fuel S._begin S._begin
    S.ops.deref tmp

/-- Loop of `enumerable::at`:
    `for( std::size_t i = 0; i < index && it != _end; ++i, ++it )
       { if( i == index ) return *it; }`
    followed by the `throw` after the loop. -/
def at_loop {I α : Type} (ops : IteratorOps I α) (e : I) (index : Nat) : Nat → Nat → I → Res α
  | 0, _, _ => .error .outOfFuel
  | fuel + 1, i, it =>
    if i < index && !ops.eq it e then
      if i == index then ops.deref it
      else do
        let it1 ← ops.inc it
        at_loop ops e index fuel (i + 1) it1
    else .error .indexOutOfRange

/-- `enumerable::at`. -/
def enumerable.at_ {I α : Type} (S : enumerable I α) (index : Nat) (fuel : Nat) : Res α :=
  at_loop S.ops S._end index fuel 0 S._begin

/-- Loop of `enumerable::push_back`:
    `for( auto i : *this ) container.push_back( i );`, that is
    `for( it = begin(); it != end(); ++it ) { auto i = *it; container.push_back( i ); }`. -/
def push_back_loop {I α : Type} (ops : IteratorOps I α) (e : I) :
    Nat → I → List α → Res (List α)
  | 0, _, _ => .error .outOfFuel
  | fuel + 1, it, container =>
    if ops.eq it e then .ok container
    else do
      let i ← ops.deref it
      let it1 ← ops.inc it
      push_back_loop ops e fuel it1 (container ++ [i])

/-- `enumerable::push_back`: the container after the call. -/
def enumerable.push_back {I α : Type} (S : enumerable I α) (fuel : Nat) (container : List α) :
    Res (List α) :=
  push_back_loop S.ops S._end fuel S._begin container

/-! ## Aggregate operators -/

/-- Loop of `enumerable::aggregate`:
    `while( ++it != _end ) { result = function( result, *it ); }`. -/
def aggregate_loop {I α : Type} (ops : IteratorOps I α) (e : I) (function : α → α → α) :
    Nat → I → α → Res α
  | 0, _, _ => .error .outOfFuel
  | fuel + 1, it, result => do
    let it1 ← ops.inc it
    if ops.eq it1 e then pure result
    else do
      let v ← ops.deref it1
      aggregate_loop ops e function fuel it1 (function result v)

/-- `enumerable::aggregate`. -/
def enumerable.aggregate {I α : Type} (S : enumerable I α) (function : α → α → α)
    (fuel : Nat) : Res α :=
  if S.empty then .error .emptyCollection
  else do
    let result ← S.ops.deref S._begin
    aggregate_loop S.ops S._end function fuel S._begin result

/-- `enumerable::sum`: `aggregate` with `left + right`. -/
def enumerable.sum {I α : Type} [Add α] (S : enumerable I α) (fuel : Nat) : Res α :=
  S.aggregate (fun left right => left + right) fuel

/-- `std::max( a, b )`, that is `( a < b ) ? b : a`. -/
def std_max {α : Type} [LT α] [DecidableRel (fun a b : α => a < b)] (a b : α) : α :=
  if a < b then b else a

/-- `std::min( a, b )`, that is `( b < a ) ? b : a`. -/
def std_min {α : Type} [LT α] [DecidableRel (fun a b : α => a < b)] (a b : α) : α :=
  if b < a then b else a

/-- `enumerable::max`: `aggregate` with `std::max`. -/
def enumerable.max {I α : Type} [LT α] [DecidableRel (fun a b : α => a < b)]
    (S : enumerable I α) (fuel : Nat) : Res α :=
  S.aggregate (fun left right => std_max left right) fuel

/-- `enumerable::min`: `aggregate` with `std::min`. -/
def enumerable.min {I α : Type} [LT α] [DecidableRel (fun a b : α => a < b)]
    (S : enumerable I α) (fuel : Nat) : Res α :=
  S.aggregate (fun left right => std_min left right) fuel

/-- The value a `w`-bit two's-complement signed integer holds after being
    assigned the mathematical integer `x`. -/
def wrap_signed (w : Nat) (x : Int) : Int :=
  (x + 2 ^ (w - 1)) % 2 ^ w - 2 ^ (w - 1)

/-- The expression `sum / count` of `enumerable::average` for a signed integer
    `Result` of `w` bits and a `std::size_t` of `sz` bits.  When `Result` is not
    wider than `std::size_t` the usual arithmetic conversions turn `sum` into an
    unsigned `sz`-bit value and the division is unsigned; otherwise `count` is
    converted to `Result` and the division is signed (truncating).  The quotient
    is then converted to `Result`. Division by zero is undefined. -/
def average_div (w sz : Nat) (sum : Int) (count : Nat) : Res Int :=
  if count = 0 then .error .undefinedBehaviour
  else if w ≤ sz then .ok (wrap_signed w ((sum % 2 ^ sz) / (count : Int)))
  else .ok (wrap_signed w (Int.tdiv sum (count : Int)))

/-- Loop of `enumerable::average`:
    `for( auto it = _begin; it != _end; ++it, ++count )
       { sum += static_cast< Result >( *it ); }`, returning `sum` and `count`. -/
def average_loop {I α : Type} (ops : IteratorOps I α) (e : I) (w : Nat) (cast : α → Int) :
    Nat → I → Int → Nat → Res (Int × Nat)
  | 0, _, _, _ => .error .outOfFuel
  | fuel + 1, it, sum, count =>
    if ops.eq it e then .ok (sum, count)
    else do
      let v ← ops.deref it
      let it1 ← ops.inc it
      average_loop ops e w cast fuel it1 (wrap_signed w (sum + cast v)) (count + 1)

/-- `enumerable::average< Result >` for a signed integer `Result` of `w` bits;
    `cast` is `static_cast< Result >` on the value type and `sz` the width of
    `std::size_t`. -/
def enumerable.average {I α : Type} (S : enumerable I α) (w sz : Nat) (cast : α → Int)
    (fuel : Nat) : Res Int :=
  if S.empty then .error .emptyCollection
  else do
    let r ← average_loop S.ops S._end w cast fuel S._begin 0 0
    average_div w sz r.1 r.2

/-! ## Adaptor cursors -/

/-- `select_iterator< Iterator, Function >`: its data members. -/
structure select_iterator (I α β : Type) where
  _iterator : I
  _function : α → β

/-- Operators of `select_iterator`. -/
def select_iterator.ops {I α β : Type} (inner : IteratorOps I α) :
    IteratorOps (select_iterator I α β) β where
  inc := fun s => do
    let it ← inner.inc s._iterator
    pure { s with _iterator := it }
  deref := fun s => do
    let v ← inner.deref s._iterator
    pure (s._function v)
  eq := fun s val => inner.eq s._iterator val._iterator

/-- `enumerable::select`. -/
def enumerable.select {I α β : Type} (S : enumerable I α) (function : α → β) :
    enumerable (select_iterator I α β) β :=
  from_iterators (select_iterator.ops S.ops)
    { _iterator := S._begin, _function := function }
    { _iterator := S._end, _function := function }

/-- `where_iterator< Iterator, Function >`: its data members. -/
structure where_iterator (I α : Type) where
  _iterator : I
  _end : I
  _function : α → Bool

/-- The loop `while( _iterator != _end && !_function( *_iterator ) ) ++_iterator;`
    shared by the constructor and `operator++` of `where_iterator`. -/
def where_iterator.skip_loop {I α : Type} (inner : IteratorOps I α) (e : I) (f : α → Bool) :
    Nat → I → Res I
  | 0, _ => .error .outOfFuel
  | fuel + 1, it =>
    if inner.eq it e then .ok it
    else do
      let v ← inner.deref it
      if !f v then do
        let it1 ← inner.inc it
        where_iterator.skip_loop inner e f fuel it1
      else pure it

/-- Constructor of `where_iterator`. -/
def where_iterator.ctor {I α : Type} (inner : IteratorOps I α) (fuel : Nat)
    (iterator e : I) (function : α → Bool) : Res (where_iterator I α) := do
  let it ← where_iterator.skip_loop inner e function fuel iterator
  pure { _iterator := it, _end := e, _function := function }

/-- Operators of `where_iterator`. -/
def where_iterator.ops {I α : Type} (inner : IteratorOps I α) (fuel : Nat) :
    IteratorOps (where_iterator I α) α where
  inc := fun s =>
    if inner.eq s._iterator s._end then pure s
    else do
      let it ← inner.inc s._iterator
      let it1 ← where_iterator.skip_loop inner s._end s._function fuel it
      pure { s with _iterator := it1 }
  deref := fun s => inner.deref s._iterator
  eq := fun s val => inner.eq s._iterator val._iterator

/-- `enumerable::where`. -/
def enumerable.where_ {I α : Type} (S : enumerable I α) (function : α → Bool) (fuel : Nat) :
    Res (enumerable (where_iterator I α) α) := do
  let b ← where_iterator.ctor S.ops fuel S._begin S._end function
  let e ← where_iterator.ctor S.ops fuel S._end S._end function
  pure (from_iterators (where_iterator.ops S.ops fuel) b e)

/-- `take_iterator< Iterator, Count >`: its data members.  `Count` is an integer
    type; the counters stay between `0` and the requested count. -/
structure take_iterator (I : Type) where
  _iterator : I
  _end : I
  _count : Int
  _current : Int

/-- Constructor of `take_iterator`. -/
def take_iterator.ctor {I : Type} (iterator e : I) (count : Int) : take_iterator I :=
  if (0 : Int) == count then
    { _iterator := e, _end := e, _count := count, _current := 0 }
  else
    { _iterator := iterator, _end := e, _count := count, _current := 0 }

/-- Operators of `take_iterator`. -/
def take_iterator.ops {I α : Type} (inner : IteratorOps I α) :
    IteratorOps (take_iterator I) α where
  inc := fun s =>
    if s._current + 1 == s._count then
      pure { s with _current := s._current + 1, _iterator := s._end }
    else do
      let it ← inner.inc s._iterator
      pure { s with _current := s._current + 1, _iterator := it }
  deref := fun s => inner.deref s._iterator
  eq := fun s val => inner.eq s._iterator val._iterator

/-- `enumerable::take`. -/
def enumerable.take {I α : Type} (S : enumerable I α) (count : Int) :
    enumerable (take_iterator I) α :=
  from_iterators (take_iterator.ops S.ops)
    (take_iterator.ctor S._begin S._end count)
    (take_iterator.ctor S._end S._end count)

/-- `skip_iterator< Iterator, Count >`: its data members, with the template
    parameter `Count` instantiated at a signed integer type.  The class template
    is embedded on its own: `enumerable::skip` names it as
    `skip_iterator< Iterator >`, with one argument for two parameters neither of
    which has a default, so that member cannot be instantiated and has no
    counterpart here. -/
structure skip_iterator (I : Type) where
  _iterator : I
  _end : I
  _count : Int

/-- The constructor loop `while( _iterator != _end && --_count > 0 ) ++_iterator;`
    of `skip_iterator`, returning the final `_iterator` and `_count`. -/
def skip_iterator.ctor_loop {I α : Type} (inner : IteratorOps I α) (e : I) :
    Nat → I → Int → Res (I × Int)
  | 0, _, _ => .error .outOfFuel
  | fuel + 1, it, count =>
    if inner.eq it e then .ok (it, count)
    else if count - 1 > 0 then do
      let it1 ← inner.inc it
      skip_iterator.ctor_loop inner e fuel it1 (count - 1)
    else .ok (it, count - 1)

/-- Constructor of `skip_iterator`. -/
def skip_iterator.ctor {I α : Type} (inner : IteratorOps I α) (fuel : Nat)
    (iterator e : I) (count : Int) : Res (skip_iterator I) := do
  let r ← skip_iterator.ctor_loop inner e fuel iterator count
  pure { _iterator := r.1, _end := e, _count := r.2 }

/-- Operators of `skip_iterator`. -/
def skip_iterator.ops {I α : Type} (inner : IteratorOps I α) :
    IteratorOps (skip_iterator I) α where
  inc := fun s => do
    let it ← inner.inc s._iterator
    pure { s with _iterator := it }
  deref := fun s => inner.deref s._iterator
  eq := fun s val => inner.eq s._iterator val._iterator

/-- `take_while_iterator< Iterator, Function >`: its data members. -/
structure take_while_iterator (I α : Type) where
  _iterator : I
  _end : I
  _function : α → Bool

/-- Constructor of `take_while_iterator`:
    `if( _iterator != _end && !_function( *_iterator ) ) _iterator = _end;`. -/
def take_while_iterator.ctor {I α : Type} (inner : IteratorOps I α)
    (iterator e : I) (function : α → Bool) : Res (take_while_iterator I α) :=
  if inner.eq iterator e then
    pure { _iterator := iterator, _end := e, _function := function }
  else do
    let v ← inner.deref iterator
    if !function v then
      pure { _iterator := e, _end := e, _function := function }
    else
      pure { _iterator := iterator, _end := e, _function := function }

/-- Operators of `take_while_iterator`; `operator++` is
    `++_iterator; if( !_function( *_iterator ) ) _iterator = _end;`. -/
def take_while_iterator.ops {I α : Type} (inner : IteratorOps I α) :
    IteratorOps (take_while_iterator I α) α where
  inc := fun s => do
    let it ← inner.inc s._iterator
    let v ← inner.deref it
    if !s._function v then
      pure { s with _iterator := s._end }
    else
      pure { s with _iterator := it }
  deref := fun s => inner.deref s._iterator
  eq := fun s val => inner.eq s._iterator val._iterator

/-- `enumerable::take_while`. -/
def enumerable.take_while {I α : Type} (S : enumerable I α) (function : α → Bool) :
    Res (enumerable (take_while_iterator I α) α) := do
  let b ← take_while_iterator.ctor S.ops S._begin S._end function
  let e ← take_while_iterator.ctor S.ops S._end S._end function
  pure (from_iterators (take_while_iterator.ops S.ops) b e)

/-- `skip_while_iterator< Iterator, Function >`: its data members. -/
structure skip_while_iterator (I α : Type) where
  _iterator : I
  _end : I
  _function : α → Bool

/-- Constructor of `skip_while_iterator`:
    `if( _iterator != _end && _function( *_iterator ) ) ++_iterator;`. -/
def skip_while_iterator.ctor {I α : Type} (inner : IteratorOps I α)
    (iterator e : I) (function : α → Bool) : Res (skip_while_iterator I α) :=
  if inner.eq iterator e then
    pure { _iterator := iterator, _end := e, _function := function }
  else do
    let v ← inner.deref iterator
    if function v then do
      let it ← inner.inc iterator
      pure { _iterator := it, _end := e, _function := function }
    else
      pure { _iterator := iterator, _end := e, _function := function }

/-- Operators of `skip_while_iterator`. -/
def skip_while_iterator.ops {I α : Type} (inner : IteratorOps I α) :
    IteratorOps (skip_while_iterator I α) α where
  inc := fun s => do
    let it ← inner.inc s._iterator
    pure { s with _iterator := it }
  deref := fun s => inner.deref s._iterator
  eq := fun s val => inner.eq s._iterator val._iterator

/-- `enumerable::skip_while`. -/
def enumerable.skip_while {I α : Type} (S : enumerable I α) (function : α → Bool) :
    Res (enumerable (skip_while_iterator I α) α) := do
  let b ← skip_while_iterator.ctor S.ops S._begin S._end function
  let e ← skip_while_iterator.ctor S.ops S._end S._end function
  pure (from_iterators (skip_while_iterator.ops S.ops) b e)

/-- `concat_iterator< Iterator1, Iterator2 >`: its data members. -/
structure concat_iterator (I1 I2 : Type) where
  _iterator1 : I1
  _iterator2 : I2
  _end : I1
  _first : Bool

/-- Constructor of `concat_iterator`: `_first( iterator != end )`. -/
def concat_iterator.ctor {I1 I2 α : Type} (ops1 : IteratorOps I1 α)
    (iterator e : I1) (iterator2 : I2) : concat_iterator I1 I2 :=
  { _iterator1 := iterator, _iterator2 := iterator2, _end := e,
    _first := !ops1.eq iterator e }

/-- Operators of `concat_iterator`. -/
def concat_iterator.ops {I1 I2 α : Type} (ops1 : IteratorOps I1 α) (ops2 : IteratorOps I2 α) :
    IteratorOps (concat_iterator I1 I2) α where
  inc := fun s =>
    if s._first then do
      let it1 ← ops1.inc s._iterator1
      if ops1.eq it1 s._end then
        pure { s with _iterator1 := it1, _first := false }
      else
        pure { s with _iterator1 := it1 }
    else do
      let it2 ← ops2.inc s._iterator2
      pure { s with _iterator2 := it2 }
  deref := fun s => if s._first then ops1.deref s._iterator1 else ops2.deref s._iterator2
  eq := fun s val =>
    if s._first == val._first then
      (if s._first then ops1.eq s._iterator1 val._iterator1
       else ops2.eq s._iterator2 val._iterator2)
    else false

/-- `enumerable::concat`. -/
def enumerable.concat {I1 I2 α : Type} (S : enumerable I1 α) (enumer : enumerable I2 α) :
    enumerable (concat_iterator I1 I2) α :=
  from_iterators (concat_iterator.ops S.ops enumer.ops)
    (concat_iterator.ctor S.ops S._begin S._end enumer._begin)
    (concat_iterator.ctor S.ops S._end S._end enumer._end)

/-! ## Eager drains into a sink

A sink container is represented by the list of its elements in iteration order
(from `begin()` to `end()`); the closure that mutates the sink through a
reference is a function returning the new contents.  Each drain returns the
sink after the call together with the sequence `from( container )`. -/

/-- The loop `for( auto it = _begin; it != _end; ++it ) { function( container, *it ); }`
    of `enumerable::group_by` and `enumerable::order_by`. -/
def drain_loop {I α C : Type} (ops : IteratorOps I α) (e : I) (function : C → α → C) :
    Nat → I → C → Res C
  | 0, _, _ => .error .outOfFuel
  | fuel + 1, it, container =>
    if ops.eq it e then .ok container
    else do
      let v ← ops.deref it
      let it1 ← ops.inc it
      drain_loop ops e function fuel it1 (function container v)

/-- `enumerable::group_by`. -/
def enumerable.group_by {I α γ : Type} (S : enumerable I α) (container : List γ)
    (function : List γ → α → List γ) (fuel : Nat) : Res (List γ × enumerable Nat γ) := do
  let c ← drain_loop S.ops S._end function fuel S._begin container
  pure (c, from_container c)

/-- `enumerable::order_by`. -/
def enumerable.order_by {I α γ : Type} (S : enumerable I α) (container : List γ)
    (function1 : List γ → α → List γ) (function2 : List γ → List γ) (fuel : Nat) :
    Res (List γ × enumerable Nat γ) := do
  let c ← drain_loop S.ops S._end function1 fuel S._begin container
  let c1 := function2 c
  pure (c1, from_container c1)

/-- Inner loop of `enumerable::join` for a fixed outer cursor `it1`:
    `for( auto it2 = enumer.begin(); it2 != enumer.end(); ++it2 )
       { if( function1( *it1 ) == function2( *it2 ) ) function3( container, *it1, *it2 ); }`.
    Dereferencing is a function of the cursor, so the values read for the test
    are the ones passed to `function3`. -/
def join_inner_loop {I1 I2 α β κ C : Type} [BEq κ] (ops1 : IteratorOps I1 α)
    (ops2 : IteratorOps I2 β) (e2 : I2) (function1 : α → κ) (function2 : β → κ)
    (function3 : C → α → β → C) (it1 : I1) : Nat → I2 → C → Res C
  | 0, _, _ => .error .outOfFuel
  | fuel + 1, it2, container =>
    if ops2.eq it2 e2 then .ok container
    else do
      let x ← ops1.deref it1
      let y ← ops2.deref it2
      let c := if function1 x == function2 y then function3 container x y else container
      let it3 ← ops2.inc it2
      join_inner_loop ops1 ops2 e2 function1 function2 function3 it1 fuel it3 c

/-- Outer loop of `enumerable::join`: `for( auto it1 = _begin; it1 != _end; ++it1 )`
    around the inner loop, which starts afresh from `enumer.begin()`. -/
def join_outer_loop {I1 I2 α β κ C : Type} [BEq κ] (ops1 : IteratorOps I1 α) (e1 : I1)
    (enumer : enumerable I2 β) (function1 : α → κ) (function2 : β → κ)
    (function3 : C → α → β → C) (inner_fuel : Nat) : Nat → I1 → C → Res C
  | 0, _, _ => .error .outOfFuel
  | fuel + 1, it1, container =>
    if ops1.eq it1 e1 then .ok container
    else do
      let c ← join_inner_loop ops1 enumer.ops enumer._end function1 function2 function3 it1
        inner_fuel enumer._begin container
      let it ← ops1.inc it1
      join_outer_loop ops1 e1 enumer function1 function2 function3 inner_fuel fuel it c

/-- `enumerable::join`. -/
def enumerable.join {I1 I2 α β κ γ : Type} [BEq κ] (S : enumerable I1 α)
    (container : List γ) (enumer : enumerable I2 β) (function1 : α → κ) (function2 : β → κ)
    (function3 : List γ → α → β → List γ) (fuel : Nat) :
    Res (List γ × enumerable Nat γ) := do
  let c ← join_outer_loop S.ops S._end enumer function1 function2 function3 fuel fuel
    S._begin container
  pure (c, from_container c)

/-! ## Closures of the reference usage (`linq.cpp`) -/

/-- `std::sort( c.begin(), c.end() )` on integers: the ascending rearrangement
    of `c`, computed here by insertion sort. -/
def std_sort (c : List Int) : List Int :=
  c.insertionSort (fun a b => a ≤ b)

/-- `c.insert( kv )` on a `std::multimap< int, int >` whose entries in iteration
    order are `c`: the entry goes after the last entry whose key is not greater
    than its own (the upper bound of its key). -/
def multimap_insert (c : List (Int × Int)) (kv : Int × Int) : List (Int × Int) :=
  match c with
  | [] => [kv]
  | entry :: rest =>
    if kv.1 < entry.1 then kv :: entry :: rest else entry :: multimap_insert rest kv

/-! ## Pipelines -/

/-- A sequence built from containers by a chain of `select`, `where`, `take`
    (with a non-negative count) and `concat` calls. -/
inductive Chain : Type → Type 1 where
  | source {α : Type} (container : List α) : Chain α
  | select {α β : Type} (c : Chain α) (function : α → β) : Chain β
  | where_ {α : Type} (c : Chain α) (function : α → Bool) : Chain α
  | take {α : Type} (c : Chain α) (count : Nat) : Chain α
  | concat {α : Type} (c1 c2 : Chain α) : Chain α

/-- The cursor type of the sequence a chain builds. -/
def Chain.Cursor : {α : Type} → Chain α → Type
  | _, .source _ => Nat
  | β, @Chain.select α _ c _ => select_iterator c.Cursor α β
  | α, .where_ c _ => where_iterator c.Cursor α
  | _, .take c _ => take_iterator c.Cursor
  | _, .concat c1 c2 => concat_iterator c1.Cursor c2.Cursor

/-- The calls a chain stands for: `from( container )` followed by the adaptor
    calls, innermost first. -/
def Chain.build : {α : Type} → (c : Chain α) → Nat → Res (enumerable c.Cursor α)
  | _, .source container, _ => pure (from_container container)
  | _, .select c function, fuel => do
    let S ← c.build fuel
    pure (S.select function)
  | _, .where_ c function, fuel => do
    let S ← c.build fuel
    S.where_ function fuel
  | _, .take c count, fuel => do
    let S ← c.build fuel
    pure (S.take (count : Int))
  | _, .concat c1 c2, fuel => do
    let S1 ← c1.build fuel
    let S2 ← c2.build fuel
    pure (S1.concat S2)

/-! ## Sequences and the lists they denote -/

/-- Cursor `b` walks the list `l` before it compares equal to `e`: at each
    element the cursor differs from `e`, dereferences to the element and can be
    advanced; after the last element it compares equal to `e`. -/
def Walk {I α : Type} (ops : IteratorOps I α) (e : I) : I → List α → Prop
  | b, [] => ops.eq b e = true
  | b, x :: xs =>
    ops.eq b e = false ∧ ops.deref b = .ok x ∧
      ∃ b1, ops.inc b = .ok b1 ∧ Walk ops e b1 xs

/-- The sequence `S` yields the list `l`: its end cursor compares equal to
    itself and materializing `S` with `push_back` into an empty container
    produces `l`. -/
def enumerable.Yields {I α : Type} (S : enumerable I α) (l : List α) : Prop :=
  S.ops.eq S._end S._end = true ∧ ∃ fuel, S.push_back fuel [] = .ok l

/-! ## Walks and materialization -/

theorem walk_push_back {I α : Type} (ops : IteratorOps I α) (e : I) (l : List α) :
    ∀ (b : I) (fuel : Nat) (acc : List α), Walk ops e b l → l.length < fuel →
      push_back_loop ops e fuel b acc = .ok (acc ++ l) := by
  induction l with
  | nil =>
    intro b fuel acc hw hf
    cases fuel with
    | zero => simp at hf
    | succ n =>
      simp only [Walk] at hw
      simp [push_back_loop, hw]
  | cons x xs ih =>
    intro b fuel acc hw hf
    cases fuel with
    | zero => simp at hf
    | succ n =>
      obtain ⟨h1, h2, b1, h3, h4⟩ := hw
      have hn : xs.length < n := by simpa using hf
      simp [push_back_loop, h1, h2, h3, bind, Except.bind, ih b1 n (acc ++ [x]) h4 hn]

theorem push_back_walk {I α : Type} (ops : IteratorOps I α) (e : I) :
    ∀ (fuel : Nat) (b : I) (acc r : List α), push_back_loop ops e fuel b acc = .ok r →
      ∃ l, Walk ops e b l ∧ r = acc ++ l := by
  intro fuel
  induction fuel with
  | zero => intro b acc r h; simp [push_back_loop] at h
  | succ n ih =>
    intro b acc r h
    simp only [push_back_loop] at h
    by_cases he : ops.eq b e = true
    · simp [he] at h
      exact ⟨[], by simpa [Walk] using he, by simp [h]⟩
    · have he1 : ops.eq b e = false := by simpa using he
      simp only [he1] at h
      cases hd : ops.deref b with
      | error err => simp [hd, bind, Except.bind] at h
      | ok x =>
        cases hi : ops.inc b with
        | error err => simp [hd, hi, bind, Except.bind] at h
        | ok b1 =>
          simp [hd, hi, bind, Except.bind] at h
          obtain ⟨l, hw, hr⟩ := ih b1 (acc ++ [x]) r h
          exact ⟨x :: l, ⟨he1, hd, b1, hi, hw⟩, by simp [hr]⟩

theorem yields_iff_walk {I α : Type} (S : enumerable I α) (l : List α) :
    S.Yields l ↔ S.ops.eq S._end S._end = true ∧ Walk S.ops S._end S._begin l := by
  constructor
  · rintro ⟨hr, fuel, h⟩
    obtain ⟨l1, hw, hl⟩ := push_back_walk S.ops S._end fuel S._begin [] l h
    simp at hl
    subst hl
    exact ⟨hr, hw⟩
  · rintro ⟨hr, hw⟩
    refine ⟨hr, l.length + 1, ?_⟩
    have := walk_push_back S.ops S._end l S._begin (l.length + 1) [] hw (by omega)
    simpa [enumerable.push_back] using this

theorem yields_push_back {I α : Type} (S : enumerable I α) (l : List α) (h : S.Yields l)
    (fuel : Nat) (hf : l.length < fuel) (acc : List α) :
    S.push_back fuel acc = .ok (acc ++ l) :=
  walk_push_back S.ops S._end l S._begin fuel acc ((yields_iff_walk S l).1 h).2 hf

theorem walk_const_iterator {α : Type} (suf : List α) :
    ∀ pre : List α, Walk (const_iterator (pre ++ suf)) (pre ++ suf).length pre.length suf := by
  induction suf with
  | nil => intro pre; simp [Walk, const_iterator]
  | cons x xs ih =>
    intro pre
    refine ⟨?_, ?_, pre.length + 1, ?_, ?_⟩
    · simp [const_iterator]
    · simp only [const_iterator, List.get?_eq_getElem?]
      rw [List.getElem?_append_right (le_refl _)]
      simp
    · simp [const_iterator]
    · have := ih (pre ++ [x])
      simpa using this

theorem from_container_yields {α : Type} (l : List α) : (from_container l).Yields l := by
  rw [yields_iff_walk]
  refine ⟨by simp [from_container, const_iterator], ?_⟩
  simpa [from_container] using walk_const_iterator l []

/-! ## Terminal operators on a walk -/

theorem at_loop_throws {I α : Type} (ops : IteratorOps I α) (e : I) (index : Nat)
    (l : List α) :
    ∀ (it : I) (fuel i : Nat), Walk ops e it l → l.length < fuel →
      at_loop ops e index fuel i it = .error .indexOutOfRange := by
  induction l with
  | nil =>
    intro it fuel i hw hf
    cases fuel with
    | zero => simp at hf
    | succ n =>
      simp only [Walk] at hw
      simp [at_loop, hw]
  | cons x xs ih =>
    intro it fuel i hw hf
    cases fuel with
    | zero => simp at hf
    | succ n =>
      obtain ⟨h1, _, b1, h3, h4⟩ := hw
      have hn : xs.length < n := by simpa using hf
      simp only [at_loop, h1]
      by_cases hi : i < index
      · have hne : ¬ i = index := by omega
        simp [hi, hne, h3, bind, Except.bind, ih b1 n (i + 1) h4 hn]
      · simp [hi]

theorem first_of_walk_cons {I α : Type} (S : enumerable I α) (x : α) (xs : List α)
    (hw : Walk S.ops S._end S._begin (x :: xs)) : S.first = .ok x := by
  obtain ⟨h1, h2, _⟩ := hw
  simp [enumerable.first, enumerable.empty, h1, h2]

theorem last_loop_of_walk {I α : Type} (ops : IteratorOps I α) (e : I) (l : List α) :
    ∀ (it tmp : I) (fuel : Nat), Walk ops e it l → l.length < fuel →
      ∃ tmp1, last_loop ops e fuel it tmp = .ok tmp1 ∧ (l = [] → tmp1 = tmp) ∧
        (∀ h : l ≠ [], ops.deref tmp1 = .ok (l.getLast h)) := by
  induction l with
  | nil =>
    intro it tmp fuel hw hf
    cases fuel with
    | zero => simp at hf
    | succ n =>
      simp only [Walk] at hw
      exact ⟨tmp, by simp [last_loop, hw], fun _ => rfl, fun h => absurd rfl h⟩
  | cons x xs ih =>
    intro it tmp fuel hw hf
    cases fuel with
    | zero => simp at hf
    | succ n =>
      obtain ⟨h1, h2, b1, h3, h4⟩ := hw
      have hn : xs.length < n := by simpa using hf
      obtain ⟨tmp1, ht, hnil, hcons⟩ := ih b1 it n h4 hn
      refine ⟨tmp1, by simp [last_loop, h1, h3, bind, Except.bind, ht], by simp, ?_⟩
      intro _
      cases xs with
      | nil =>
        rw [hnil rfl]
        simpa using h2
      | cons y ys =>
        rw [hcons (by simp)]
        simp

theorem last_of_walk {I α : Type} (S : enumerable I α) (l : List α) (hne : l ≠ [])
    (hw : Walk S.ops S._end S._begin l) (fuel : Nat) (hf : l.length < fuel) :
    S.last fuel = .ok (l.getLast hne) := by
  obtain ⟨tmp1, ht, _, hd⟩ := last_loop_of_walk S.ops S._end l S._begin S._begin fuel hw hf
  cases l with
  | nil => exact absurd rfl hne
  | cons x xs =>
    have h1 : S.ops.eq S._begin S._end = false := hw.1
    simp only [enumerable.last, enumerable.empty, h1, ht, bind, Except.bind]
    simpa using hd hne

theorem aggregate_loop_of_walk {I α : Type} (ops : IteratorOps I α) (e : I)
    (f : α → α → α) (xs : List α) :
    ∀ (x : α) (it : I) (r : α) (fuel : Nat), Walk ops e it (x :: xs) → xs.length < fuel →
      aggregate_loop ops e f fuel it r = .ok (xs.foldl f r) := by
  induction xs with
  | nil =>
    intro x it r fuel hw hf
    cases fuel with
    | zero => simp at hf
    | succ n =>
      obtain ⟨_, _, b1, h3, h4⟩ := hw
      simp only [Walk] at h4
      simp [aggregate_loop, h3, h4, bind, Except.bind, pure, Except.pure]
  | cons y ys ih =>
    intro x it r fuel hw hf
    cases fuel with
    | zero => simp at hf
    | succ n =>
      obtain ⟨_, _, b1, h3, h4⟩ := hw
      have hn : ys.length < n := by simpa using hf
      have h5 : ops.eq b1 e = false := h4.1
      have h6 : ops.deref b1 = .ok y := h4.2.1
      simp [aggregate_loop, h3, h5, h6, bind, Except.bind, ih y b1 (f r y) n h4 hn]

theorem aggregate_of_walk {I α : Type} (S : enumerable I α) (f : α → α → α) (x : α)
    (xs : List α) (hw : Walk S.ops S._end S._begin (x :: xs)) (fuel : Nat)
    (hf : xs.length < fuel) : S.aggregate f fuel = .ok (xs.foldl f x) := by
  have h1 : S.ops.eq S._begin S._end = false := hw.1
  have h2 : S.ops.deref S._begin = .ok x := hw.2.1
  simp [enumerable.aggregate, enumerable.empty, h1, h2, bind, Except.bind,
    aggregate_loop_of_walk S.ops S._end f xs x S._begin x fuel hw hf]

theorem average_loop_of_walk {I α : Type} (ops : IteratorOps I α) (e : I) (w : Nat)
    (cast : α → Int) (l : List α) :
    ∀ (it : I) (sum : Int) (count fuel : Nat), Walk ops e it l → l.length < fuel →
      average_loop ops e w cast fuel it sum count =
        .ok (l.foldl (fun s v => wrap_signed w (s + cast v)) sum, count + l.length) := by
  induction l with
  | nil =>
    intro it sum count fuel hw hf
    cases fuel with
    | zero => simp at hf
    | succ n =>
      simp only [Walk] at hw
      simp [average_loop, hw]
  | cons x xs ih =>
    intro it sum count fuel hw hf
    cases fuel with
    | zero => simp at hf
    | succ n =>
      obtain ⟨h1, h2, b1, h3, h4⟩ := hw
      have hn : xs.length < n := by simpa using hf
      simp [average_loop, h1, h2, h3, bind, Except.bind, ih b1 _ (count + 1) n h4 hn]
      omega

theorem average_of_walk {I α : Type} (S : enumerable I α) (w sz : Nat) (cast : α → Int)
    (x : α) (xs : List α) (hw : Walk S.ops S._end S._begin (x :: xs)) (fuel : Nat)
    (hf : (x :: xs).length < fuel) :
    S.average w sz cast fuel =
      average_div w sz ((x :: xs).foldl (fun s v => wrap_signed w (s + cast v)) 0)
        (x :: xs).length := by
  have h1 : S.ops.eq S._begin S._end = false := hw.1
  simp [enumerable.average, enumerable.empty, h1, bind, Except.bind,
    average_loop_of_walk S.ops S._end w cast (x :: xs) S._begin 0 0 fuel hw hf]

theorem empty_of_walk_nil {I α : Type} (S : enumerable I α)
    (hw : Walk S.ops S._end S._begin []) : S.empty = true := by
  simpa [Walk, enumerable.empty] using hw

theorem count_loop_of_walk {I α : Type} (ops : IteratorOps I α) (e : I) (l : List α) :
    ∀ (it : I) (sz fuel : Nat), Walk ops e it l → l.length < fuel →
      count_loop ops e fuel it sz = .ok (sz + l.length) := by
  induction l with
  | nil =>
    intro it sz fuel hw hf
    cases fuel with
    | zero => simp at hf
    | succ n =>
      simp only [Walk] at hw
      simp [count_loop, hw]
  | cons x xs ih =>
    intro it sz fuel hw hf
    cases fuel with
    | zero => simp at hf
    | succ n =>
      obtain ⟨h1, _, b1, h3, h4⟩ := hw
      have hn : xs.length < n := by simpa using hf
      simp [count_loop, h1, h3, bind, Except.bind, ih b1 (sz + 1) n h4 hn]
      omega

theorem yields_count {I α : Type} (S : enumerable I α) (l : List α) (h : S.Yields l)
    (fuel : Nat) (hf : l.length < fuel) : S.count fuel = .ok l.length := by
  have := count_loop_of_walk S.ops S._end l S._begin 0 fuel ((yields_iff_walk S l).1 h).2 hf
  simpa [enumerable.count] using this

/-! ## Adaptors on a walk -/

theorem select_walk {I α β : Type} (inner : IteratorOps I α) (e : I) (f : α → β)
    (l : List α) :
    ∀ b : I, Walk inner e b l →
      Walk (select_iterator.ops inner) { _iterator := e, _function := f }
        { _iterator := b, _function := f } (l.map f) := by
  induction l with
  | nil => intro b hw; simpa [Walk, select_iterator.ops] using hw
  | cons x xs ih =>
    intro b hw
    obtain ⟨h1, h2, b1, h3, h4⟩ := hw
    refine ⟨by simpa [select_iterator.ops] using h1, ?_, { _iterator := b1, _function := f },
      ?_, ih b1 h4⟩
    · simp [select_iterator.ops, h2, bind, Except.bind, pure, Except.pure]
    · simp [select_iterator.ops, h3, bind, Except.bind, pure, Except.pure]

theorem select_yields {I α β : Type} (S : enumerable I α) (f : α → β) (l : List α)
    (h : S.Yields l) : (S.select f).Yields (l.map f) := by
  rw [yields_iff_walk] at h ⊢
  exact ⟨by simpa [enumerable.select, from_iterators, select_iterator.ops] using h.1,
    by simpa [enumerable.select, from_iterators] using select_walk S.ops S._end f l S._begin h.2⟩

theorem where_skip_loop_walk {I α : Type} (inner : IteratorOps I α) (e : I) (p : α → Bool)
    (F : Nat) (l : List α) :
    ∀ (b : I) (fuel : Nat), Walk inner e b l → l.length < fuel → l.length < F →
      ∃ b1, where_iterator.skip_loop inner e p fuel b = .ok b1 ∧
        Walk (where_iterator.ops inner F) { _iterator := e, _end := e, _function := p }
          { _iterator := b1, _end := e, _function := p } (l.filter p) := by
  induction l with
  | nil =>
    intro b fuel hw hf _
    cases fuel with
    | zero => simp at hf
    | succ n =>
      simp only [Walk] at hw
      exact ⟨b, by simp [where_iterator.skip_loop, hw],
        by simpa [Walk, where_iterator.ops] using hw⟩
  | cons x xs ih =>
    intro b fuel hw hf hF
    cases fuel with
    | zero => simp at hf
    | succ n =>
      obtain ⟨h1, h2, b1, h3, h4⟩ := hw
      have hn : xs.length < n := by simpa using hf
      have hF1 : xs.length < F := by simp at hF; omega
      by_cases hp : p x = true
      · refine ⟨b, by simp [where_iterator.skip_loop, h1, h2, hp, bind, Except.bind, pure,
          Except.pure], ?_⟩
        obtain ⟨b2, hs, hw2⟩ := ih b1 F h4 hF1 hF1
        rw [List.filter_cons_of_pos hp]
        refine ⟨by simpa [where_iterator.ops] using h1, by simpa [where_iterator.ops] using h2,
          { _iterator := b2, _end := e, _function := p }, ?_, hw2⟩
        simp [where_iterator.ops, h1, h3, hs, bind, Except.bind, pure, Except.pure]
      · have hp1 : p x = false := by simpa using hp
        obtain ⟨b2, hs, hw2⟩ := ih b1 n h4 hn hF1
        refine ⟨b2, by simp [where_iterator.skip_loop, h1, h2, hp1, h3, bind, Except.bind, hs],
          ?_⟩
        rw [List.filter_cons_of_neg hp]
        exact hw2

theorem where_yields {I α : Type} (S : enumerable I α) (p : α → Bool) (l : List α)
    (h : S.Yields l) (fuel : Nat) (hf : l.length < fuel) :
    ∃ W, S.where_ p fuel = .ok W ∧ W.Yields (l.filter p) := by
  rw [yields_iff_walk] at h
  obtain ⟨hr, hw⟩ := h
  obtain ⟨b1, hs, hw1⟩ := where_skip_loop_walk S.ops S._end p fuel l S._begin fuel hw hf hf
  have he : where_iterator.skip_loop S.ops S._end p fuel S._end = .ok S._end := by
    cases fuel with
    | zero => simp at hf
    | succ n => simp [where_iterator.skip_loop, hr]
  refine ⟨from_iterators (where_iterator.ops S.ops fuel)
    { _iterator := b1, _end := S._end, _function := p }
    { _iterator := S._end, _end := S._end, _function := p }, ?_, ?_⟩
  · simp [enumerable.where_, where_iterator.ctor, hs, he, bind, Except.bind, pure, Except.pure]
  · rw [yields_iff_walk]
    exact ⟨by simpa [from_iterators, where_iterator.ops] using hr,
      by simpa [from_iterators] using hw1⟩

theorem take_walk {I α : Type} (inner : IteratorOps I α) (e : I) (n : Int)
    (we : take_iterator I) (hwe : we._iterator = e) (hr : inner.eq e e = true) (l : List α) :
    ∀ (b : I) (c : Int), 0 ≤ c → c < n → Walk inner e b l →
      Walk (take_iterator.ops inner) we
        { _iterator := b, _end := e, _count := n, _current := c } (l.take (n - c).toNat) := by
  induction l with
  | nil =>
    intro b c _ _ hw
    simp only [Walk] at hw
    simpa [Walk, take_iterator.ops, hwe] using hw
  | cons x xs ih =>
    intro b c hc hcn hw
    obtain ⟨h1, h2, b1, h3, h4⟩ := hw
    have hk : (n - c).toNat = (n - (c + 1)).toNat + 1 := by omega
    rw [hk, List.take_succ_cons]
    by_cases hlast : c + 1 = n
    · refine ⟨by simpa [take_iterator.ops, hwe] using h1,
        by simpa [take_iterator.ops] using h2,
        { _iterator := e, _end := e, _count := n, _current := c + 1 }, ?_, ?_⟩
      · simp [take_iterator.ops, hlast, pure, Except.pure]
      · have hz : (n - (c + 1)).toNat = 0 := by omega
        rw [hz]
        simpa [Walk, take_iterator.ops, hwe] using hr
    · refine ⟨by simpa [take_iterator.ops, hwe] using h1,
        by simpa [take_iterator.ops] using h2,
        { _iterator := b1, _end := e, _count := n, _current := c + 1 }, ?_, ?_⟩
      · simp [take_iterator.ops, hlast, h3, bind, Except.bind, pure, Except.pure]
      · exact ih b1 (c + 1) (by omega) (by omega) h4

theorem take_yields {I α : Type} (S : enumerable I α) (n : Int) (hn : 0 ≤ n) (l : List α)
    (h : S.Yields l) : (S.take n).Yields (l.take n.toNat) := by
  rw [yields_iff_walk] at h ⊢
  obtain ⟨hr, hw⟩ := h
  have hend : (take_iterator.ctor S._end S._end n)._iterator = S._end := by
    unfold take_iterator.ctor
    split <;> rfl
  refine ⟨by simpa [enumerable.take, from_iterators, take_iterator.ops, hend] using hr, ?_⟩
  by_cases h0 : n = 0
  · subst h0
    simpa [enumerable.take, from_iterators, take_iterator.ctor, Walk, take_iterator.ops] using hr
  · have hpos : (0 : Int) < n := by omega
    have hb : take_iterator.ctor S._begin S._end n =
        { _iterator := S._begin, _end := S._end, _count := n, _current := 0 } := by
      have : ¬ (0 : Int) = n := by omega
      simp [take_iterator.ctor, this]
    have := take_walk S.ops S._end n (take_iterator.ctor S._end S._end n) hend hr l S._begin 0
      (le_refl _) hpos hw
    simpa [enumerable.take, from_iterators, hb] using this

theorem skip_ctor_loop_walk {I α : Type} (inner : IteratorOps I α) (e : I) (l : List α) :
    ∀ (b : I) (n : Int) (fuel : Nat), Walk inner e b l → l.length < fuel →
      ∃ r, skip_iterator.ctor_loop inner e fuel b n = .ok r ∧
        Walk inner e r.1 (l.drop (n - 1).toNat) := by
  induction l with
  | nil =>
    intro b n fuel hw hf
    cases fuel with
    | zero => simp at hf
    | succ k =>
      simp only [Walk] at hw
      exact ⟨(b, n), by simp [skip_iterator.ctor_loop, hw], by simpa [Walk] using hw⟩
  | cons x xs ih =>
    intro b n fuel hw hf
    cases fuel with
    | zero => simp at hf
    | succ k =>
      have hk : xs.length < k := by simpa using hf
      have h1 : inner.eq b e = false := hw.1
      by_cases hn : n - 1 > 0
      · obtain ⟨_, _, b1, h3, h4⟩ := hw
        obtain ⟨r, hr, hwr⟩ := ih b1 (n - 1) k h4 hk
        refine ⟨r, by simp [skip_iterator.ctor_loop, h1, hn, h3, bind, Except.bind, hr], ?_⟩
        have hd : (n - 1).toNat = (n - 1 - 1).toNat + 1 := by omega
        rw [hd, List.drop_succ_cons]
        exact hwr
      · refine ⟨(b, n - 1), by simp [skip_iterator.ctor_loop, h1, hn], ?_⟩
        have hd : (n - 1).toNat = 0 := by omega
        rw [hd]
        simpa using hw

theorem skip_walk {I α : Type} (inner : IteratorOps I α) (e : I) (we : skip_iterator I)
    (hwe : we._iterator = e) (l : List α) :
    ∀ (b : I) (c : Int), Walk inner e b l →
      Walk (skip_iterator.ops inner) we { _iterator := b, _end := e, _count := c } l := by
  induction l with
  | nil =>
    intro b c hw
    simp only [Walk] at hw
    simpa [Walk, skip_iterator.ops, hwe] using hw
  | cons x xs ih =>
    intro b c hw
    obtain ⟨h1, h2, b1, h3, h4⟩ := hw
    refine ⟨by simpa [skip_iterator.ops, hwe] using h1, by simpa [skip_iterator.ops] using h2,
      { _iterator := b1, _end := e, _count := c }, ?_, ih b1 c h4⟩
    simp [skip_iterator.ops, h3, bind, Except.bind, pure, Except.pure]

theorem concat_walk_second {I1 I2 α : Type} (ops1 : IteratorOps I1 α)
    (ops2 : IteratorOps I2 α) (e1 : I1) (e2 : I2) (we : concat_iterator I1 I2)
    (hwe1 : we._first = false) (hwe2 : we._iterator2 = e2) (l2 : List α) :
    ∀ (i1 : I1) (c : I2), Walk ops2 e2 c l2 →
      Walk (concat_iterator.ops ops1 ops2) we
        { _iterator1 := i1, _iterator2 := c, _end := e1, _first := false } l2 := by
  induction l2 with
  | nil =>
    intro i1 c hw
    simp only [Walk] at hw
    simpa [Walk, concat_iterator.ops, hwe1, hwe2] using hw
  | cons x xs ih =>
    intro i1 c hw
    obtain ⟨h1, h2, c1, h3, h4⟩ := hw
    refine ⟨by simpa [concat_iterator.ops, hwe1, hwe2] using h1,
      by simpa [concat_iterator.ops] using h2,
      { _iterator1 := i1, _iterator2 := c1, _end := e1, _first := false }, ?_, ih i1 c1 h4⟩
    simp [concat_iterator.ops, h3, bind, Except.bind, pure, Except.pure]

theorem concat_walk_first {I1 I2 α : Type} (ops1 : IteratorOps I1 α)
    (ops2 : IteratorOps I2 α) (e1 : I1) (e2 : I2) (we : concat_iterator I1 I2)
    (hwe1 : we._first = false) (hwe2 : we._iterator2 = e2) (b2 : I2) (l2 : List α)
    (hw2 : Walk ops2 e2 b2 l2) (xs : List α) :
    ∀ (x : α) (b : I1), Walk ops1 e1 b (x :: xs) →
      Walk (concat_iterator.ops ops1 ops2) we
        { _iterator1 := b, _iterator2 := b2, _end := e1, _first := true }
        (x :: xs ++ l2) := by
  induction xs with
  | nil =>
    intro x b hw
    obtain ⟨_, h2, c, h3, h4⟩ := hw
    simp only [Walk] at h4
    refine ⟨by simp [concat_iterator.ops, hwe1], by simpa [concat_iterator.ops] using h2,
      { _iterator1 := c, _iterator2 := b2, _end := e1, _first := false }, ?_, ?_⟩
    · simp [concat_iterator.ops, h3, h4, bind, Except.bind, pure, Except.pure]
    · simpa using concat_walk_second ops1 ops2 e1 e2 we hwe1 hwe2 l2 c b2 hw2
  | cons y ys ih =>
    intro x b hw
    obtain ⟨_, h2, c, h3, h4⟩ := hw
    have h5 : ops1.eq c e1 = false := h4.1
    refine ⟨by simp [concat_iterator.ops, hwe1], by simpa [concat_iterator.ops] using h2,
      { _iterator1 := c, _iterator2 := b2, _end := e1, _first := true }, ?_, ?_⟩
    · simp [concat_iterator.ops, h3, h5, bind, Except.bind, pure, Except.pure]
    · simpa using ih y c h4

theorem concat_yields {I1 I2 α : Type} (S1 : enumerable I1 α) (S2 : enumerable I2 α)
    (l1 l2 : List α) (h1 : S1.Yields l1) (h2 : S2.Yields l2) :
    (S1.concat S2).Yields (l1 ++ l2) := by
  rw [yields_iff_walk] at h1 h2 ⊢
  obtain ⟨hr1, hw1⟩ := h1
  obtain ⟨hr2, hw2⟩ := h2
  have hef : (concat_iterator.ctor S1.ops S1._end S1._end S2._end)._first = false := by
    simp [concat_iterator.ctor, hr1]
  have he2 : (concat_iterator.ctor S1.ops S1._end S1._end S2._end)._iterator2 = S2._end := rfl
  refine ⟨?_, ?_⟩
  · simp [enumerable.concat, from_iterators, concat_iterator.ops, hef, he2, hr2]
  · cases l1 with
    | nil =>
      simp only [Walk] at hw1
      have hb : concat_iterator.ctor S1.ops S1._begin S1._end S2._begin =
          { _iterator1 := S1._begin, _iterator2 := S2._begin, _end := S1._end,
            _first := false } := by
        simp [concat_iterator.ctor, hw1]
      simpa [enumerable.concat, from_iterators, hb] using
        concat_walk_second S1.ops S2.ops S1._end S2._end _ hef he2 l2 S1._begin S2._begin hw2
    | cons x xs =>
      have hne : S1.ops.eq S1._begin S1._end = false := hw1.1
      have hb : concat_iterator.ctor S1.ops S1._begin S1._end S2._begin =
          { _iterator1 := S1._begin, _iterator2 := S2._begin, _end := S1._end,
            _first := true } := by
        simp [concat_iterator.ctor, hne]
      simpa [enumerable.concat, from_iterators, hb] using
        concat_walk_first S1.ops S2.ops S1._end S2._end _ hef he2 S2._begin l2 hw2 xs x
          S1._begin hw1

/-! ## Indexing -/

/-- C1: `at( index )` with a valid index does not return the element at that
    index.  On the container `{ 4, 5, 6 }`, whose element at index `1` is `5`, the
    call `at( 1 )` throws the index-out-of-range exception for every loop bound:
    the test `i == index` sits inside a loop guarded by `i < index`. -/
theorem at_valid_index_throws :
    [(4 : Int), 5, 6].get? 1 = some 5 ∧
      ∀ fuel : Nat, (from_container [(4 : Int), 5, 6]).at_ 1 (fuel + 4) =
        .error .indexOutOfRange := by
  refine ⟨rfl, fun fuel => ?_⟩
  have hw := ((yields_iff_walk _ _).1 (from_container_yields [(4 : Int), 5, 6])).2
  exact at_loop_throws _ _ 1 _ _ (fuel + 4) 0 hw (by simp)

/-- C9: for a sequence `S` yielding `l` and every index `index ≥ l.length`,
    `at( index )` throws the index-out-of-range exception (it returns no value),
    for every loop bound above the length of `l`.  The proof does not need the
    bound on `index`: the loop of `at` never returns. -/
theorem at_out_of_range_throws {I α : Type} (S : enumerable I α) (l : List α)
    (hS : S.Yields l) (index : Nat) (_hi : l.length ≤ index) (fuel : Nat)
    (hf : l.length < fuel) :
    S.at_ index fuel = .error .indexOutOfRange ∧ ∀ v, S.at_ index fuel ≠ .ok v := by
  have h : S.at_ index fuel = .error .indexOutOfRange :=
    at_loop_throws S.ops S._end index l S._begin fuel 0 ((yields_iff_walk S l).1 hS).2 hf
  exact ⟨h, fun v hv => by rw [h] at hv; cases hv⟩

theorem at_out_of_range_throws_witness :
    (from_container [(4 : Int), 5, 6]).Yields [4, 5, 6] ∧
      [(4 : Int), 5, 6].length ≤ 3 ∧ [(4 : Int), 5, 6].length < 4 ∧
      (from_container [(4 : Int), 5, 6]).at_ 3 4 = .error .indexOutOfRange :=
  ⟨from_container_yields _, by decide, by decide,
    (at_out_of_range_throws (from_container [(4 : Int), 5, 6]) [4, 5, 6]
      (from_container_yields _) 3 (by decide) 4 (by decide)).1⟩

/-! ## Lazy adaptors -/

/-- C2: for a sequence `S` yielding `l` and a predicate `p`, `S.where( p )` is
    constructed and materializing it with `push_back` into an empty container
    gives `l.filter p`: a sub-list of `l` in the same order, all of whose elements
    satisfy `p`, and containing every element of `l` that satisfies `p`. -/
theorem where_materializes {I α : Type} (S : enumerable I α) (l : List α) (p : α → Bool)
    (hS : S.Yields l) (fuel : Nat) (hf : l.length < fuel) :
    (∃ W, S.where_ p fuel = .ok W ∧ W.push_back fuel [] = .ok (l.filter p)) ∧
      (l.filter p).Sublist l ∧ (∀ x, x ∈ l.filter p ↔ x ∈ l ∧ p x = true) := by
  obtain ⟨W, hW, hY⟩ := where_yields S p l hS fuel hf
  refine ⟨⟨W, hW, ?_⟩, List.filter_sublist l, fun x => List.mem_filter⟩
  have hlen : (l.filter p).length < fuel := lt_of_le_of_lt (List.length_filter_le p l) hf
  simpa using yields_push_back W (l.filter p) hY fuel hlen []

theorem where_materializes_witness :
    (from_container [(4 : Int), 5, 6, 1, 2, 3, 7, 8, 9]).Yields [4, 5, 6, 1, 2, 3, 7, 8, 9] ∧
      [(4 : Int), 5, 6, 1, 2, 3, 7, 8, 9].length < 10 ∧
      ∃ W, (from_container [(4 : Int), 5, 6, 1, 2, 3, 7, 8, 9]).where_
          (fun x => x % 2 == 1) 10 = .ok W ∧
        W.push_back 10 [] = .ok [5, 1, 3, 7, 9] := by
  refine ⟨from_container_yields _, by decide, ?_⟩
  obtain ⟨W, h1, h2⟩ := (where_materializes (from_container [(4 : Int), 5, 6, 1, 2, 3, 7, 8, 9])
    [4, 5, 6, 1, 2, 3, 7, 8, 9] (fun x => x % 2 == 1) (from_container_yields _) 10
    (by decide)).1
  exact ⟨W, h1, by rw [h2]; rfl⟩

/-- C3: for a sequence `S` yielding `l` and a function `f`, materializing
    `S.select( f )` with `push_back` into an empty container gives `l.map f`:
    `f` applied to each element, in the same order and with the same length. -/
theorem select_materializes {I α β : Type} (S : enumerable I α) (l : List α) (f : α → β)
    (hS : S.Yields l) (fuel : Nat) (hf : l.length < fuel) :
    (S.select f).push_back fuel [] = .ok (l.map f) ∧ (l.map f).length = l.length := by
  refine ⟨?_, List.length_map l f⟩
  have hlen : (l.map f).length < fuel := by simpa using hf
  simpa using yields_push_back (S.select f) (l.map f) (select_yields S f l hS) fuel hlen []

theorem select_materializes_witness :
    (from_container [(4 : Int), 5, 6, 1, 2, 3, 7, 8, 9]).Yields [4, 5, 6, 1, 2, 3, 7, 8, 9] ∧
      [(4 : Int), 5, 6, 1, 2, 3, 7, 8, 9].length < 10 ∧
      ((from_container [(4 : Int), 5, 6, 1, 2, 3, 7, 8, 9]).select (fun x => x + 10)).push_back
        10 [] = .ok [14, 15, 16, 11, 12, 13, 17, 18, 19] := by
  refine ⟨from_container_yields _, by decide, ?_⟩
  have h := (select_materializes (from_container [(4 : Int), 5, 6, 1, 2, 3, 7, 8, 9])
    [4, 5, 6, 1, 2, 3, 7, 8, 9] (fun x => x + 10) (from_container_yields _) 10 (by decide)).1
  rw [h]; rfl

/-- C4: for sequences `S1` yielding `l1` and `S2` yielding `l2` (either may be
    empty), materializing `S1.concat( S2 )` gives `l1 ++ l2`, and walking from its
    begin cursor reaches its end cursor after exactly `l1.length + l2.length`
    advances: `count()`, which counts the advances from begin until the cursor
    first compares equal to end, returns `l1.length + l2.length` on the
    concatenation, `l1.length` on `S1` and `l2.length` on `S2`. -/
theorem concat_materializes {I1 I2 α : Type} (S1 : enumerable I1 α) (S2 : enumerable I2 α)
    (l1 l2 : List α) (h1 : S1.Yields l1) (h2 : S2.Yields l2) (fuel : Nat)
    (hf : l1.length + l2.length < fuel) :
    (S1.concat S2).push_back fuel [] = .ok (l1 ++ l2) ∧
      (S1.concat S2).count fuel = .ok (l1.length + l2.length) ∧
      S1.count fuel = .ok l1.length ∧ S2.count fuel = .ok l2.length := by
  have hY := concat_yields S1 S2 l1 l2 h1 h2
  have hlen : (l1 ++ l2).length < fuel := by simpa using hf
  refine ⟨by simpa using yields_push_back _ _ hY fuel hlen [], ?_,
    yields_count S1 l1 h1 fuel (by omega), yields_count S2 l2 h2 fuel (by omega)⟩
  simpa using yields_count _ _ hY fuel hlen

theorem concat_materializes_witness :
    (from_container [(4 : Int), 5]).Yields [4, 5] ∧ (from_container ([] : List Int)).Yields [] ∧
      [(4 : Int), 5].length + ([] : List Int).length < 3 ∧
      ((from_container [(4 : Int), 5]).concat (from_container [])).push_back 3 [] =
        .ok [4, 5] ∧
      ((from_container [(4 : Int), 5]).concat (from_container [])).count 3 = .ok 2 := by
  have h := concat_materializes (from_container [(4 : Int), 5]) (from_container [])
    [4, 5] [] (from_container_yields _) (from_container_yields _) 3 (by decide)
  exact ⟨from_container_yields _, from_container_yields _, by decide, h.1, h.2.1⟩

/-- C5: for a sequence `S` yielding `l` and a count `n ≥ 0`, materializing
    `S.take( n )` gives the first `min n l.length` elements of `l` in order;
    `take( 0 )` is empty and a count of at least `l.length` gives all of `l`. -/
theorem take_materializes {I α : Type} (S : enumerable I α) (l : List α) (n : Int)
    (hn : 0 ≤ n) (hS : S.Yields l) (fuel : Nat) (hf : l.length < fuel) :
    (S.take n).push_back fuel [] = .ok (l.take n.toNat) ∧
      (l.take n.toNat).length = min n.toNat l.length ∧
      (n = 0 → (S.take n).push_back fuel [] = .ok []) ∧
      ((l.length : Int) ≤ n → (S.take n).push_back fuel [] = .ok l) := by
  have hY := take_yields S n hn l hS
  have hlen : (l.take n.toNat).length < fuel := by
    have : (l.take n.toNat).length ≤ l.length := by simp [List.length_take]
    omega
  have hp : (S.take n).push_back fuel [] = .ok (l.take n.toNat) := by
    simpa using yields_push_back _ _ hY fuel hlen []
  refine ⟨hp, List.length_take _ _, ?_, ?_⟩
  · intro h0
    rw [hp, h0]; simp
  · intro hge
    rw [hp, List.take_of_length_le (by omega)]

theorem take_materializes_witness :
    (0 : Int) ≤ 2 ∧ (from_container [(4 : Int), 5, 6]).Yields [4, 5, 6] ∧
      [(4 : Int), 5, 6].length < 4 ∧
      ((from_container [(4 : Int), 5, 6]).take 2).push_back 4 [] = .ok [4, 5] :=
  ⟨by decide, from_container_yields _, by decide,
    (take_materializes (from_container [(4 : Int), 5, 6]) [4, 5, 6] 2 (by decide)
      (from_container_yields _) 4 (by decide)).1⟩

/-- C7: traversing `S.take_while( p )` fails when every element of a non-empty
    `S` satisfies `p`.  On the container `{ 1, 2, 3 }` with `p x = (0 < x)` the
    sequence is constructed, but `push_back` runs into undefined behaviour for
    every loop bound: the advance after the last element dereferences the inner
    past-the-end cursor to test `p`. -/
theorem take_while_all_true_undefined :
    ∃ T, (from_container [(1 : Int), 2, 3]).take_while (fun x => decide (0 < x)) = .ok T ∧
      ∀ fuel : Nat, T.push_back (fuel + 3) [] = .error .undefinedBehaviour := by
  refine ⟨_, rfl, fun fuel => ?_⟩
  simp [enumerable.push_back, push_back_loop, from_iterators, take_while_iterator.ops,
    const_iterator, from_container, bind, Except.bind, pure, Except.pure]

/-! ## Failure on empty sequences and folding -/

/-- C8: for a sequence `S` yielding `l`, each of `first()`, `last()`,
    `aggregate( f )`, `sum()`, `max()`, `min()` and `average< Result >()` throws
    the empty-collection exception if and only if `l` is empty, and on a
    non-empty `l` each of them returns a value. -/
theorem empty_collection_error_iff {I α : Type} [Add α] [LT α]
    [DecidableRel (fun a b : α => a < b)] (S : enumerable I α) (l : List α)
    (hS : S.Yields l) (f : α → α → α) (w sz : Nat) (cast : α → Int) (fuel : Nat)
    (hf : l.length < fuel) :
    ((S.first = .error .emptyCollection ↔ l = []) ∧
      (S.last fuel = .error .emptyCollection ↔ l = []) ∧
      (S.aggregate f fuel = .error .emptyCollection ↔ l = []) ∧
      (S.sum fuel = .error .emptyCollection ↔ l = []) ∧
      (S.max fuel = .error .emptyCollection ↔ l = []) ∧
      (S.min fuel = .error .emptyCollection ↔ l = []) ∧
      (S.average w sz cast fuel = .error .emptyCollection ↔ l = [])) ∧
    (l ≠ [] →
      (∃ v, S.first = .ok v) ∧ (∃ v, S.last fuel = .ok v) ∧
      (∃ v, S.aggregate f fuel = .ok v) ∧ (∃ v, S.sum fuel = .ok v) ∧
      (∃ v, S.max fuel = .ok v) ∧ (∃ v, S.min fuel = .ok v) ∧
      (∃ v, S.average w sz cast fuel = .ok v)) := by
  have hw := ((yields_iff_walk S l).1 hS).2
  cases l with
  | nil =>
    have he : S.empty = true := empty_of_walk_nil S hw
    refine ⟨?_, fun h => absurd rfl h⟩
    simp [enumerable.first, enumerable.last, enumerable.aggregate, enumerable.sum,
      enumerable.max, enumerable.min, enumerable.average, he]
  | cons x xs =>
    have hxs : xs.length < fuel := by simp at hf; omega
    have h1 := first_of_walk_cons S x xs hw
    have h2 := last_of_walk S (x :: xs) (by simp) hw fuel hf
    have h3 := aggregate_of_walk S f x xs hw fuel hxs
    have h4 : S.sum fuel = .ok (xs.foldl (fun left right => left + right) x) :=
      aggregate_of_walk S _ x xs hw fuel hxs
    have h5 : S.max fuel = .ok (xs.foldl (fun left right => std_max left right) x) :=
      aggregate_of_walk S _ x xs hw fuel hxs
    have h6 : S.min fuel = .ok (xs.foldl (fun left right => std_min left right) x) :=
      aggregate_of_walk S _ x xs hw fuel hxs
    have h7 : ∃ v, S.average w sz cast fuel = .ok v := by
      rw [average_of_walk S w sz cast x xs hw fuel hf]
      unfold average_div
      by_cases hws : w ≤ sz <;> simp [hws]
    obtain ⟨v7, h7⟩ := h7
    refine ⟨?_, fun _ => ⟨⟨_, h1⟩, ⟨_, h2⟩, ⟨_, h3⟩, ⟨_, h4⟩, ⟨_, h5⟩, ⟨_, h6⟩, ⟨_, h7⟩⟩⟩
    simp [h1, h2, h3, h4, h5, h6, h7]

theorem empty_collection_error_iff_witness :
    (from_container [(5 : Int), 1, 3, 7, 9]).Yields [5, 1, 3, 7, 9] ∧
      [(5 : Int), 1, 3, 7, 9].length < 6 ∧
      ((from_container [(5 : Int), 1, 3, 7, 9]).first = .error .emptyCollection ↔
        [(5 : Int), 1, 3, 7, 9] = []) ∧
      ((from_container [(5 : Int), 1, 3, 7, 9]).average 32 64 id 6 = .error .emptyCollection ↔
        [(5 : Int), 1, 3, 7, 9] = []) ∧
      (∃ v, (from_container [(5 : Int), 1, 3, 7, 9]).sum 6 = .ok v) := by
  have h := empty_collection_error_iff (from_container [(5 : Int), 1, 3, 7, 9]) [5, 1, 3, 7, 9]
    (from_container_yields _) (fun a b => a * b) 32 64 id 6 (by decide)
  exact ⟨from_container_yields _, by decide, h.1.1, h.1.2.2.2.2.2.2,
    (h.2 (by decide)).2.2.2.1⟩

/-- C10: for a sequence `S` yielding the non-empty list `x :: xs` and a binary
    function `f`, `aggregate( f )` returns the seedless left fold: it starts from
    `x` and applies `f( result, e )` once for each later element `e` in order; for
    a single-element sequence the result is `x` whatever `f` is. -/
theorem aggregate_is_left_fold {I α : Type} (S : enumerable I α) (x : α) (xs : List α)
    (f : α → α → α) (hS : S.Yields (x :: xs)) (fuel : Nat) (hf : (x :: xs).length < fuel) :
    S.aggregate f fuel = .ok (xs.foldl f x) ∧ (xs = [] → S.aggregate f fuel = .ok x) := by
  have hw := ((yields_iff_walk S (x :: xs)).1 hS).2
  have hxs : xs.length < fuel := by simp at hf; omega
  have h := aggregate_of_walk S f x xs hw fuel hxs
  exact ⟨h, fun hnil => by rw [h, hnil]; rfl⟩

theorem aggregate_is_left_fold_witness :
    (from_container [(5 : Int), 1, 3, 7, 9]).Yields (5 :: [1, 3, 7, 9]) ∧
      ((5 : Int) :: [1, 3, 7, 9]).length < 6 ∧
      (from_container [(5 : Int), 1, 3, 7, 9]).aggregate (fun a b => a - b) 6 = .ok (-15) := by
  have h := (aggregate_is_left_fold (from_container [(5 : Int), 1, 3, 7, 9]) 5 [1, 3, 7, 9]
    (fun a b => a - b) (from_container_yields _) 6 (by decide)).1
  exact ⟨from_container_yields _, by decide, by rw [h]; rfl⟩

/-! ## take_while and skip_while on a walk -/

theorem take_while_walk {I α : Type} (inner : IteratorOps I α) (e : I) (p : α → Bool)
    (we : take_while_iterator I α) (hwe : we._iterator = e) (hr : inner.eq e e = true)
    (xs : List α) :
    ∀ (x : α) (b : I), Walk inner e b (x :: xs) → p x = true → (∃ y ∈ xs, p y = false) →
      Walk (take_while_iterator.ops inner) we
        { _iterator := b, _end := e, _function := p } ((x :: xs).takeWhile p) := by
  induction xs with
  | nil =>
    intro x b _ _ hex
    obtain ⟨y, hy, _⟩ := hex
    cases hy
  | cons y ys ih =>
    intro x b hw hpx hex
    obtain ⟨h1, h2, b1, h3, h4⟩ := hw
    have h6 : inner.deref b1 = .ok y := h4.2.1
    rw [List.takeWhile_cons_of_pos hpx]
    by_cases hpy : p y = true
    · have hex1 : ∃ z ∈ ys, p z = false := by
        obtain ⟨z, hz, hpz⟩ := hex
        rcases List.mem_cons.1 hz with hzy | hzys
        · subst hzy
          rw [hpy] at hpz
          cases hpz
        · exact ⟨z, hzys, hpz⟩
      refine ⟨by simpa [take_while_iterator.ops, hwe] using h1,
        by simpa [take_while_iterator.ops] using h2,
        { _iterator := b1, _end := e, _function := p }, ?_, ih y b1 h4 hpy hex1⟩
      simp [take_while_iterator.ops, h3, h6, hpy, bind, Except.bind, pure, Except.pure]
    · have hpy1 : p y = false := by simpa using hpy
      refine ⟨by simpa [take_while_iterator.ops, hwe] using h1,
        by simpa [take_while_iterator.ops] using h2,
        { _iterator := e, _end := e, _function := p }, ?_, ?_⟩
      · simp [take_while_iterator.ops, h3, h6, hpy1, bind, Except.bind, pure, Except.pure]
      · rw [List.takeWhile_cons_of_neg hpy]
        simpa [Walk, take_while_iterator.ops, hwe] using hr

theorem take_while_yields {I α : Type} (S : enumerable I α) (p : α → Bool) (l : List α)
    (h : S.Yields l) (hex : ∃ y ∈ l, p y = false) :
    ∃ T, S.take_while p = .ok T ∧ T.Yields (l.takeWhile p) := by
  rw [yields_iff_walk] at h
  obtain ⟨hr, hw⟩ := h
  have he : take_while_iterator.ctor S.ops S._end S._end p =
      .ok { _iterator := S._end, _end := S._end, _function := p } := by
    simp [take_while_iterator.ctor, hr, pure, Except.pure]
  cases l with
  | nil =>
    obtain ⟨y, hy, _⟩ := hex
    cases hy
  | cons x xs =>
    have h1 : S.ops.eq S._begin S._end = false := hw.1
    have h2 : S.ops.deref S._begin = .ok x := hw.2.1
    by_cases hpx : p x = true
    · have hex1 : ∃ z ∈ xs, p z = false := by
        obtain ⟨z, hz, hpz⟩ := hex
        rcases List.mem_cons.1 hz with hzx | hzxs
        · subst hzx
          rw [hpx] at hpz
          cases hpz
        · exact ⟨z, hzxs, hpz⟩
      refine ⟨from_iterators (take_while_iterator.ops S.ops)
        { _iterator := S._begin, _end := S._end, _function := p }
        { _iterator := S._end, _end := S._end, _function := p }, ?_, ?_⟩
      · simp [enumerable.take_while, take_while_iterator.ctor, hr, h1, h2, hpx, bind,
          Except.bind, pure, Except.pure]
      · rw [yields_iff_walk]
        exact ⟨by simpa [from_iterators, take_while_iterator.ops] using hr,
          by simpa [from_iterators] using
            take_while_walk S.ops S._end p _ rfl hr xs x S._begin hw hpx hex1⟩
    · have hpx1 : p x = false := by simpa using hpx
      refine ⟨from_iterators (take_while_iterator.ops S.ops)
        { _iterator := S._end, _end := S._end, _function := p }
        { _iterator := S._end, _end := S._end, _function := p }, ?_, ?_⟩
      · simp [enumerable.take_while, take_while_iterator.ctor, hr, h1, h2, hpx1, bind,
          Except.bind, pure, Except.pure]
      · rw [yields_iff_walk, List.takeWhile_cons_of_neg hpx]
        exact ⟨by simpa [from_iterators, take_while_iterator.ops] using hr,
          by simpa [from_iterators, Walk, take_while_iterator.ops] using hr⟩

theorem skip_while_walk {I α : Type} (inner : IteratorOps I α) (e : I) (p : α → Bool)
    (we : skip_while_iterator I α) (hwe : we._iterator = e) (l : List α) :
    ∀ b : I, Walk inner e b l →
      Walk (skip_while_iterator.ops inner) we
        { _iterator := b, _end := e, _function := p } l := by
  induction l with
  | nil =>
    intro b hw
    simp only [Walk] at hw
    simpa [Walk, skip_while_iterator.ops, hwe] using hw
  | cons x xs ih =>
    intro b hw
    obtain ⟨h1, h2, b1, h3, h4⟩ := hw
    refine ⟨by simpa [skip_while_iterator.ops, hwe] using h1,
      by simpa [skip_while_iterator.ops] using h2,
      { _iterator := b1, _end := e, _function := p }, ?_, ih b1 h4⟩
    simp [skip_while_iterator.ops, h3, bind, Except.bind, pure, Except.pure]

/-- What `skip_while( p )` leaves of a list: the list without its first element
    when that element satisfies `p`, the whole list otherwise. -/
theorem skip_while_yields {I α : Type} (S : enumerable I α) (p : α → Bool) (l : List α)
    (h : S.Yields l) :
    ∃ K, S.skip_while p = .ok K ∧
      K.Yields (if l.head?.map p = some true then l.tail else l) := by
  rw [yields_iff_walk] at h
  obtain ⟨hr, hw⟩ := h
  have he : skip_while_iterator.ctor S.ops S._end S._end p =
      .ok { _iterator := S._end, _end := S._end, _function := p } := by
    simp [skip_while_iterator.ctor, hr, pure, Except.pure]
  cases l with
  | nil =>
    simp only [Walk] at hw
    refine ⟨from_iterators (skip_while_iterator.ops S.ops)
      { _iterator := S._begin, _end := S._end, _function := p }
      { _iterator := S._end, _end := S._end, _function := p }, ?_, ?_⟩
    · simp [enumerable.skip_while, skip_while_iterator.ctor, hr, hw, bind, Except.bind, pure,
        Except.pure]
    · rw [yields_iff_walk]
      simp only [List.head?_nil, Option.map_none']
      exact ⟨by simpa [from_iterators, skip_while_iterator.ops] using hr,
        by simpa [from_iterators, Walk, skip_while_iterator.ops] using hw⟩
  | cons x xs =>
    obtain ⟨h1, h2, b1, h3, h4⟩ := hw
    by_cases hpx : p x = true
    · refine ⟨from_iterators (skip_while_iterator.ops S.ops)
        { _iterator := b1, _end := S._end, _function := p }
        { _iterator := S._end, _end := S._end, _function := p }, ?_, ?_⟩
      · simp [enumerable.skip_while, skip_while_iterator.ctor, hr, h1, h2, h3, hpx, bind,
          Except.bind, pure, Except.pure]
      · rw [yields_iff_walk]
        simp only [List.head?_cons, Option.map_some', hpx, if_true, List.tail_cons]
        exact ⟨by simpa [from_iterators, skip_while_iterator.ops] using hr,
          by simpa [from_iterators] using skip_while_walk S.ops S._end p _ rfl xs b1 h4⟩
    · have hpx1 : p x = false := by simpa using hpx
      refine ⟨from_iterators (skip_while_iterator.ops S.ops)
        { _iterator := S._begin, _end := S._end, _function := p }
        { _iterator := S._end, _end := S._end, _function := p }, ?_, ?_⟩
      · simp [enumerable.skip_while, skip_while_iterator.ctor, hr, h1, h2, hpx1, bind,
          Except.bind, pure, Except.pure]
      · rw [yields_iff_walk]
        simp only [List.head?_cons, Option.map_some', hpx1]
        exact ⟨by simpa [from_iterators, skip_while_iterator.ops] using hr,
          by simpa [from_iterators] using
            skip_while_walk S.ops S._end p _ rfl (x :: xs) S._begin ⟨h1, h2, b1, h3, h4⟩⟩

/-! ## Drains on a walk -/

theorem drain_loop_of_walk {I α C : Type} (ops : IteratorOps I α) (e : I) (f : C → α → C)
    (l : List α) :
    ∀ (it : I) (c : C) (fuel : Nat), Walk ops e it l → l.length < fuel →
      drain_loop ops e f fuel it c = .ok (l.foldl f c) := by
  induction l with
  | nil =>
    intro it c fuel hw hf
    cases fuel with
    | zero => simp at hf
    | succ n =>
      simp only [Walk] at hw
      simp [drain_loop, hw]
  | cons x xs ih =>
    intro it c fuel hw hf
    cases fuel with
    | zero => simp at hf
    | succ n =>
      obtain ⟨h1, h2, b1, h3, h4⟩ := hw
      have hn : xs.length < n := by simpa using hf
      simp [drain_loop, h1, h2, h3, bind, Except.bind, ih b1 (f c x) n h4 hn]

theorem from_container_push_back {γ : Type} (c : List γ) (j : Nat) :
    (from_container c).push_back (c.length + 1 + j) [] = .ok c := by
  simpa using yields_push_back (from_container c) c (from_container_yields c)
    (c.length + 1 + j) (by omega) []

theorem join_inner_loop_of_walk {I1 I2 α β κ C : Type} [BEq κ] (ops1 : IteratorOps I1 α)
    (ops2 : IteratorOps I2 β) (e2 : I2) (f1 : α → κ) (f2 : β → κ) (f3 : C → α → β → C)
    (it1 : I1) (x : α) (hx : ops1.deref it1 = .ok x) (r : List β) :
    ∀ (it2 : I2) (c : C) (fuel : Nat), Walk ops2 e2 it2 r → r.length < fuel →
      join_inner_loop ops1 ops2 e2 f1 f2 f3 it1 fuel it2 c =
        .ok (r.foldl (fun c y => if f1 x == f2 y then f3 c x y else c) c) := by
  induction r with
  | nil =>
    intro it2 c fuel hw hf
    cases fuel with
    | zero => simp at hf
    | succ n =>
      simp only [Walk] at hw
      simp [join_inner_loop, hw]
  | cons y ys ih =>
    intro it2 c fuel hw hf
    cases fuel with
    | zero => simp at hf
    | succ n =>
      obtain ⟨h1, h2, b1, h3, h4⟩ := hw
      have hn : ys.length < n := by simpa using hf
      simp [join_inner_loop, h1, h2, h3, hx, bind, Except.bind, ih b1 _ n h4 hn]

theorem join_outer_loop_of_walk {I1 I2 α β κ C : Type} [BEq κ] (ops1 : IteratorOps I1 α)
    (e1 : I1) (R : enumerable I2 β) (f1 : α → κ) (f2 : β → κ) (f3 : C → α → β → C)
    (r : List β) (hw2 : Walk R.ops R._end R._begin r) (inner_fuel : Nat)
    (hi : r.length < inner_fuel) (l : List α) :
    ∀ (it1 : I1) (c : C) (fuel : Nat), Walk ops1 e1 it1 l → l.length < fuel →
      join_outer_loop ops1 e1 R f1 f2 f3 inner_fuel fuel it1 c =
        .ok (l.foldl
          (fun c x => r.foldl (fun c y => if f1 x == f2 y then f3 c x y else c) c) c) := by
  induction l with
  | nil =>
    intro it1 c fuel hw hf
    cases fuel with
    | zero => simp at hf
    | succ n =>
      simp only [Walk] at hw
      simp [join_outer_loop, hw]
  | cons x xs ih =>
    intro it1 c fuel hw hf
    cases fuel with
    | zero => simp at hf
    | succ n =>
      obtain ⟨h1, h2, b1, h3, h4⟩ := hw
      have hn : xs.length < n := by simpa using hf
      simp [join_outer_loop, h1, h3, bind, Except.bind,
        join_inner_loop_of_walk ops1 R.ops R._end f1 f2 f3 it1 x h2 r R._begin c inner_fuel
          hw2 hi,
        ih b1 _ n h4 hn]

theorem foldl_append_if {β γ : Type} (q : β → Bool) (g : β → γ) (r : List β) :
    ∀ c : List γ, r.foldl (fun c y => if q y = true then c ++ [g y] else c) c =
      c ++ (r.filter q).map g := by
  induction r with
  | nil => intro c; simp
  | cons y ys ih =>
    intro c
    by_cases hq : q y = true
    · simp [hq, ih]
    · simp [hq, ih]

theorem foldl_append_flatMap {α γ : Type} (F : α → List γ) (l : List α) :
    ∀ c : List γ, l.foldl (fun c x => c ++ F x) c = c ++ l.flatMap F := by
  induction l with
  | nil => intro c; simp
  | cons x xs ih => intro c; simp [ih]

theorem length_flatMap_const {α γ : Type} (F : α → List γ) (n : Nat) (l : List α)
    (h : ∀ x, (F x).length = n) : (l.flatMap F).length = l.length * n := by
  induction l with
  | nil => simp
  | cons x xs ih =>
    simp [ih, h, Nat.add_mul]
    omega

theorem join_of_yields {I1 I2 α β κ γ : Type} [BEq κ] (L : enumerable I1 α)
    (R : enumerable I2 β) (l : List α) (r : List β) (kl : α → κ) (kr : β → κ)
    (comb : α → β → γ) (hL : L.Yields l) (hR : R.Yields r) (k : List γ) (fuel : Nat)
    (hl : l.length < fuel) (hr : r.length < fuel) :
    L.join k R kl kr (fun c x y => c ++ [comb x y]) fuel =
      .ok (k ++ l.flatMap (fun x => (r.filter (fun y => kl x == kr y)).map (comb x)),
        from_container
          (k ++ l.flatMap (fun x => (r.filter (fun y => kl x == kr y)).map (comb x)))) := by
  have hw1 := ((yields_iff_walk L l).1 hL).2
  have hw2 := ((yields_iff_walk R r).1 hR).2
  have h := join_outer_loop_of_walk L.ops L._end R kl kr (fun c x y => c ++ [comb x y]) r hw2
    fuel hr l L._begin k fuel hw1 hl
  have hfold : l.foldl (fun c x => r.foldl
        (fun c y => if (kl x == kr y) = true then c ++ [comb x y] else c) c) k =
      k ++ l.flatMap (fun x => (r.filter (fun y => kl x == kr y)).map (comb x)) := by
    have : (fun (c : List γ) x => r.foldl
          (fun c y => if (kl x == kr y) = true then c ++ [comb x y] else c) c) =
        fun c x => c ++ (r.filter (fun y => kl x == kr y)).map (comb x) := by
      funext c x
      exact foldl_append_if (fun y => kl x == kr y) (comb x) r c
    rw [this]
    exact foldl_append_flatMap _ l k
  simp only [enumerable.join, h, hfold, bind, Except.bind, pure, Except.pure]

/-! ## Emptiness, pipelines and list facts -/

theorem empty_iff_of_yields {I α : Type} (S : enumerable I α) (l : List α) (h : S.Yields l) :
    S.empty = true ↔ l = [] := by
  have hw := ((yields_iff_walk S l).1 h).2
  cases l with
  | nil => simpa using empty_of_walk_nil S hw
  | cons x xs =>
    have h1 : S.ops.eq S._begin S._end = false := hw.1
    simp [enumerable.empty, h1]

theorem chain_yields {α : Type} (c : Chain α) :
    ∃ (l : List α) (fuel0 : Nat), l.length < fuel0 ∧
      ∀ k : Nat, ∃ S, c.build (fuel0 + k) = .ok S ∧ S.Yields l := by
  induction c with
  | source container =>
    exact ⟨container, container.length + 1, by omega,
      fun k => ⟨from_container container, rfl, from_container_yields container⟩⟩
  | select c f ih =>
    obtain ⟨l, fuel0, hlt, h⟩ := ih
    refine ⟨l.map f, fuel0, by simpa using hlt, fun k => ?_⟩
    obtain ⟨S, hS, hY⟩ := h k
    exact ⟨S.select f, by simp [Chain.build, hS, bind, Except.bind, pure, Except.pure],
      select_yields S f l hY⟩
  | where_ c p ih =>
    obtain ⟨l, fuel0, hlt, h⟩ := ih
    refine ⟨l.filter p, fuel0, lt_of_le_of_lt (List.length_filter_le p l) hlt, fun k => ?_⟩
    obtain ⟨S, hS, hY⟩ := h k
    obtain ⟨W, hW, hYW⟩ := where_yields S p l hY (fuel0 + k) (by omega)
    exact ⟨W, by simp [Chain.build, hS, hW, bind, Except.bind], hYW⟩
  | take c n ih =>
    obtain ⟨l, fuel0, hlt, h⟩ := ih
    have hlen : (l.take n).length ≤ l.length := by simp [List.length_take]
    refine ⟨l.take n, fuel0, by omega, fun k => ?_⟩
    obtain ⟨S, hS, hY⟩ := h k
    have hT := take_yields S (n : Int) (by omega) l hY
    rw [Int.toNat_ofNat] at hT
    exact ⟨S.take (n : Int), by simp [Chain.build, hS, bind, Except.bind, pure, Except.pure],
      hT⟩
  | concat c1 c2 ih1 ih2 =>
    obtain ⟨l1, f1, hlt1, h1⟩ := ih1
    obtain ⟨l2, f2, hlt2, h2⟩ := ih2
    refine ⟨l1 ++ l2, f1 + f2, by simp; omega, fun k => ?_⟩
    obtain ⟨S1, hS1, hY1⟩ := h1 (f2 + k)
    obtain ⟨S2, hS2, hY2⟩ := h2 (f1 + k)
    have e1 : f1 + f2 + k = f1 + (f2 + k) := by omega
    have e2 : f1 + f2 + k = f2 + (f1 + k) := by omega
    refine ⟨S1.concat S2, ?_, concat_yields S1 S2 l1 l2 hY1 hY2⟩
    have hb1 : c1.build (f1 + f2 + k) = .ok S1 := by rw [e1]; exact hS1
    have hb2 : c2.build (f1 + f2 + k) = .ok S2 := by rw [e2]; exact hS2
    simp [Chain.build, hb1, hb2, bind, Except.bind, pure, Except.pure]

theorem head?_filter_eq_find? {α : Type} (p : α → Bool) (l : List α) :
    (l.filter p).head? = l.find? p := by
  induction l with
  | nil => rfl
  | cons x xs ih =>
    by_cases hp : p x = true
    · simp [hp]
    · simp [hp, ih]

theorem getLast?_filter_eq_find? {α : Type} (p : α → Bool) (l : List α) :
    (l.filter p).getLast? = l.reverse.find? p := by
  rw [← head?_filter_eq_find?, List.filter_reverse, List.head?_reverse]

theorem foldl_add_eq_sum (xs : List Int) :
    ∀ a : Int, xs.foldl (fun left right => left + right) a = a + xs.sum := by
  induction xs with
  | nil => intro a; simp
  | cons x xs ih => intro a; simp [ih]; omega

theorem foldl_std_max (xs : List Int) :
    ∀ a : Int, (xs.foldl (fun left right => std_max left right) a = a ∨
        xs.foldl (fun left right => std_max left right) a ∈ xs) ∧
      a ≤ xs.foldl (fun left right => std_max left right) a ∧
      ∀ y ∈ xs, y ≤ xs.foldl (fun left right => std_max left right) a := by
  induction xs with
  | nil => intro a; simp
  | cons x xs ih =>
    intro a
    obtain ⟨hm, hle, hall⟩ := ih (std_max a x)
    have hax : a ≤ std_max a x ∧ x ≤ std_max a x ∧ (std_max a x = a ∨ std_max a x = x) := by
      unfold std_max
      by_cases h : a < x
      · simp [h]; omega
      · simp [h]; omega
    simp only [List.foldl_cons, List.mem_cons]
    refine ⟨?_, le_trans hax.1 hle, ?_⟩
    · rcases hm with hm | hm
      · rcases hax.2.2 with h | h
        · left; rw [hm, h]
        · right; left; rw [hm, h]
      · right; right; exact hm
    · intro y hy
      rcases hy with hy | hy
      · rw [hy]; exact le_trans hax.2.1 hle
      · exact hall y hy

theorem foldl_std_min (xs : List Int) :
    ∀ a : Int, (xs.foldl (fun left right => std_min left right) a = a ∨
        xs.foldl (fun left right => std_min left right) a ∈ xs) ∧
      xs.foldl (fun left right => std_min left right) a ≤ a ∧
      ∀ y ∈ xs, xs.foldl (fun left right => std_min left right) a ≤ y := by
  induction xs with
  | nil => intro a; simp
  | cons x xs ih =>
    intro a
    obtain ⟨hm, hle, hall⟩ := ih (std_min a x)
    have hax : std_min a x ≤ a ∧ std_min a x ≤ x ∧ (std_min a x = a ∨ std_min a x = x) := by
      unfold std_min
      by_cases h : x < a
      · simp [h]; omega
      · simp [h]; omega
    simp only [List.foldl_cons, List.mem_cons]
    refine ⟨?_, le_trans hle hax.1, ?_⟩
    · rcases hm with hm | hm
      · rcases hax.2.2 with h | h
        · left; rw [hm, h]
        · right; left; rw [hm, h]
      · right; right; exact hm
    · intro y hy
      rcases hy with hy | hy
      · rw [hy]; exact le_trans hle hax.2.1
      · exact hall y hy

/-! ## Average -/

/-- C11: `average< int >()` on the container `{ -1, -1, -1 }` does not return the
    truncated quotient.  The sum `-3` fits in `int` and `-3 / 3` truncated toward
    zero is `-1`, but `count` is a `std::size_t`, so `sum / count` converts `sum`
    to unsigned and divides there: with a 32-bit `int` the call returns
    `1431655764`, for a 64-bit and for a 32-bit `std::size_t`, for every loop
    bound. -/
theorem average_negative_sum_unsigned :
    ([(-1 : Int), -1, -1].map id).sum = -3 ∧ Int.tdiv (-3) 3 = -1 ∧
      ∀ fuel : Nat,
        (from_container [(-1 : Int), -1, -1]).average 32 64 id (fuel + 4) = .ok 1431655764 ∧
        (from_container [(-1 : Int), -1, -1]).average 32 32 id (fuel + 4) = .ok 1431655764 := by
  refine ⟨by decide, by decide, fun fuel => ?_⟩
  have hw := ((yields_iff_walk _ _).1 (from_container_yields [(-1 : Int), -1, -1])).2
  rw [average_of_walk _ 32 64 id (-1) [-1, -1] hw (fuel + 4) (by simp),
    average_of_walk _ 32 32 id (-1) [-1, -1] hw (fuel + 4) (by simp)]
  exact ⟨rfl, rfl⟩

/-! ## Eager drains -/

/-- C12: for a left sequence `L` yielding `l`, a right sequence `R` yielding `r`,
    key functions `kl`, `kr` and a combine closure appending `comb x y` to a
    sequence sink that starts empty, `join` returns a sequence that materializes
    to the list of `comb x y` over the pairs with `kl x == kr y`, outer-major over
    `l` and inner-minor over `r`; when the keys always match its length is
    `l.length * r.length`. -/
theorem join_materializes {I1 I2 α β κ γ : Type} [BEq κ] (L : enumerable I1 α)
    (R : enumerable I2 β) (l : List α) (r : List β) (kl : α → κ) (kr : β → κ)
    (comb : α → β → γ) (hL : L.Yields l) (hR : R.Yields r) (fuel : Nat)
    (hl : l.length < fuel) (hr : r.length < fuel) :
    ∃ c Q, L.join [] R kl kr (fun c x y => c ++ [comb x y]) fuel = .ok (c, Q) ∧
      c = l.flatMap (fun x => (r.filter (fun y => kl x == kr y)).map (comb x)) ∧
      (∀ j : Nat, Q.push_back (c.length + 1 + j) [] = .ok c) ∧
      ((∀ x y, (kl x == kr y) = true) → c.length = l.length * r.length) := by
  refine ⟨_, _, by simpa using join_of_yields L R l r kl kr comb hL hR [] fuel hl hr, rfl,
    fun j => from_container_push_back _ j, ?_⟩
  intro hk
  apply length_flatMap_const
  intro x
  simp [hk]

theorem join_materializes_witness :
    (from_container [(4 : Int), 5, 6, 1, 2, 3, 7, 8, 9]).Yields [4, 5, 6, 1, 2, 3, 7, 8, 9] ∧
      (from_container [(14 : Int), 15, 16, 11, 12, 13, 17, 18, 19]).Yields
        [14, 15, 16, 11, 12, 13, 17, 18, 19] ∧
      ∃ c Q, (from_container [(4 : Int), 5, 6, 1, 2, 3, 7, 8, 9]).join []
          (from_container [(14 : Int), 15, 16, 11, 12, 13, 17, 18, 19])
          (fun _ => true) (fun _ => true) (fun c x y => c ++ [x + y]) 10 = .ok (c, Q) ∧
        Q.push_back (c.length + 1) [] = .ok c ∧ c.length = 81 ∧
        c.take 10 = [18, 19, 20, 15, 16, 17, 21, 22, 23, 19] := by
  refine ⟨from_container_yields _, from_container_yields _, ?_⟩
  obtain ⟨c, Q, h1, h2, h3, h4⟩ := join_materializes
    (from_container [(4 : Int), 5, 6, 1, 2, 3, 7, 8, 9])
    (from_container [(14 : Int), 15, 16, 11, 12, 13, 17, 18, 19])
    [4, 5, 6, 1, 2, 3, 7, 8, 9] [14, 15, 16, 11, 12, 13, 17, 18, 19]
    (fun _ => true) (fun _ => true) (fun x y => x + y)
    (from_container_yields _) (from_container_yields _) 10 (by decide) (by decide)
  refine ⟨c, Q, h1, h3 0, by simpa using h4 (fun _ _ => rfl), ?_⟩
  rw [h2]
  rfl

/-- C13: for a sequence `S` yielding `l`, `order_by` applies the build closure
    once per element in traversal order and then the finalize closure once: the
    sink ends as `finalize (l.foldl build k)` and the returned sequence is the one
    over that sink.  With a sink that starts empty, build = append and finalize an
    ascending sort, the returned sequence materializes to the ascending sorted
    permutation of `l`. -/
theorem order_by_sorts {I α γ : Type} [LE α] (S : enumerable I α) (l : List α)
    (hS : S.Yields l) (k : List γ) (build : List γ → α → List γ)
    (finalize : List γ → List γ) (sort : List α → List α)
    (hperm : ∀ c, (sort c).Perm c) (hsorted : ∀ c, (sort c).Sorted (fun a b => a ≤ b))
    (fuel : Nat) (hf : l.length < fuel) :
    S.order_by k build finalize fuel =
        .ok (finalize (l.foldl build k), from_container (finalize (l.foldl build k))) ∧
      ∃ c Q, S.order_by [] (fun c x => c ++ [x]) sort fuel = .ok (c, Q) ∧
        (∀ j : Nat, Q.push_back (c.length + 1 + j) [] = .ok c) ∧
        c.Perm l ∧ c.Sorted (fun a b => a ≤ b) := by
  have hw := ((yields_iff_walk S l).1 hS).2
  have hgen : ∀ {δ : Type} (k : List δ) (b : List δ → α → List δ) (fin : List δ → List δ),
      S.order_by k b fin fuel =
        .ok (fin (l.foldl b k), from_container (fin (l.foldl b k))) := by
    intro δ k b fin
    simp [enumerable.order_by, drain_loop_of_walk S.ops S._end b l S._begin k fuel hw hf, bind,
      Except.bind, pure, Except.pure]
  have happ : l.foldl (fun (c : List α) x => c ++ [x]) [] = l := by
    have := foldl_append_flatMap (fun x : α => [x]) l []
    simpa using this
  refine ⟨hgen k build finalize, sort l, from_container (sort l), ?_,
    fun j => from_container_push_back _ j, hperm l, hsorted l⟩
  rw [hgen [] (fun c x => c ++ [x]) sort, happ]

theorem order_by_sorts_witness :
    (from_container [(4 : Int), 5, 6, 1, 2, 3, 7, 8, 9]).Yields [4, 5, 6, 1, 2, 3, 7, 8, 9] ∧
      (∀ c, (std_sort c).Perm c) ∧ (∀ c, (std_sort c).Sorted (fun a b => a ≤ b)) ∧
      ∃ c Q, (from_container [(4 : Int), 5, 6, 1, 2, 3, 7, 8, 9]).order_by []
          (fun c x => c ++ [x]) std_sort 10 = .ok (c, Q) ∧
        Q.push_back (c.length + 1) [] = .ok c ∧ c = [1, 2, 3, 4, 5, 6, 7, 8, 9] := by
  have hp : ∀ c, (std_sort c).Perm c := fun c => List.perm_insertionSort _ c
  have hs : ∀ c, (std_sort c).Sorted (fun a b => a ≤ b) :=
    fun c => List.sorted_insertionSort _ c
  refine ⟨from_container_yields _, hp, hs, ?_⟩
  have h := (order_by_sorts (from_container [(4 : Int), 5, 6, 1, 2, 3, 7, 8, 9])
    [4, 5, 6, 1, 2, 3, 7, 8, 9] (from_container_yields _) ([] : List Int)
    (fun c x => c ++ [x]) std_sort std_sort hp hs 10 (by decide)).1
  exact ⟨_, _, h, from_container_push_back _ 0, by decide⟩

/-- C14: for a sequence `S` yielding `l`, a sink holding `k` and an insertion
    closure `g`, `group_by( k, g )` leaves the sink equal to the left fold of `g`
    over `l` starting from `k` (one call of `g` per element, in traversal order,
    made by `group_by` itself), and the returned sequence materializes to the
    final sink in the sink's iteration order. -/
theorem group_by_folds {I α γ : Type} (S : enumerable I α) (l : List α) (hS : S.Yields l)
    (k : List γ) (g : List γ → α → List γ) (fuel : Nat) (hf : l.length < fuel) :
    ∃ Q, S.group_by k g fuel = .ok (l.foldl g k, Q) ∧
      ∀ j : Nat, Q.push_back ((l.foldl g k).length + 1 + j) [] = .ok (l.foldl g k) := by
  have hw := ((yields_iff_walk S l).1 hS).2
  refine ⟨from_container (l.foldl g k), ?_, fun j => from_container_push_back _ j⟩
  simp [enumerable.group_by, drain_loop_of_walk S.ops S._end g l S._begin k fuel hw hf, bind,
    Except.bind, pure, Except.pure]

theorem group_by_folds_witness :
    (from_container [(4 : Int), 5, 6, 1, 2, 3, 7, 8, 9]).Yields [4, 5, 6, 1, 2, 3, 7, 8, 9] ∧
      ∃ Q, (from_container [(4 : Int), 5, 6, 1, 2, 3, 7, 8, 9]).group_by []
          (fun c x => multimap_insert c (Int.tmod x 2, x)) 10 =
          .ok ([(0, 4), (0, 6), (0, 2), (0, 8), (1, 5), (1, 1), (1, 3), (1, 7), (1, 9)], Q) ∧
        Q.push_back 10 [] =
          .ok [(0, 4), (0, 6), (0, 2), (0, 8), (1, 5), (1, 1), (1, 3), (1, 7), (1, 9)] := by
  obtain ⟨Q, h1, h2⟩ := group_by_folds (from_container [(4 : Int), 5, 6, 1, 2, 3, 7, 8, 9])
    [4, 5, 6, 1, 2, 3, 7, 8, 9] (from_container_yields _) []
    (fun c x => multimap_insert c (Int.tmod x 2, x)) 10 (by decide)
  exact ⟨from_container_yields _, Q, h1, h2 0⟩

/-! ## Scalar extraction -/

/-- C15: for a sequence `S` yielding a non-empty `l`, `first()` returns the first
    and `last()` the last element of `l`; when some element of `l` satisfies `p`,
    `S.where( p ).first()` is the earliest element of `l` satisfying `p` and
    `S.where( p ).last()` the latest one. -/
theorem first_last_elements {I α : Type} (S : enumerable I α) (l : List α) (p : α → Bool)
    (hS : S.Yields l) (fuel : Nat) (hf : l.length < fuel) :
    (∀ h : l ≠ [], S.first = .ok (l.head h) ∧ S.last fuel = .ok (l.getLast h)) ∧
      ((∃ x ∈ l, p x = true) →
        ∃ W u v, S.where_ p fuel = .ok W ∧
          l.find? p = some u ∧ W.first = .ok u ∧
          l.reverse.find? p = some v ∧ W.last fuel = .ok v) := by
  have hfl : ∀ {J : Type} (T : enumerable J α) (m : List α), T.Yields m → m.length < fuel →
      ∀ h : m ≠ [], T.first = .ok (m.head h) ∧ T.last fuel = .ok (m.getLast h) := by
    intro J T m hT hm h
    have hw := ((yields_iff_walk T m).1 hT).2
    refine ⟨?_, last_of_walk T m h hw fuel hm⟩
    cases m with
    | nil => exact absurd rfl h
    | cons x xs => simpa using first_of_walk_cons T x xs hw
  refine ⟨hfl S l hS hf, ?_⟩
  rintro ⟨x, hx, hpx⟩
  obtain ⟨W, hW, hY⟩ := where_yields S p l hS fuel hf
  have hne : l.filter p ≠ [] := List.ne_nil_of_mem (List.mem_filter.2 ⟨hx, hpx⟩)
  have hlen : (l.filter p).length < fuel := lt_of_le_of_lt (List.length_filter_le p l) hf
  obtain ⟨h1, h2⟩ := hfl W (l.filter p) hY hlen hne
  refine ⟨W, (l.filter p).head hne, (l.filter p).getLast hne, hW, ?_, h1, ?_, h2⟩
  · rw [← head?_filter_eq_find?, List.head?_eq_head hne]
  · rw [← getLast?_filter_eq_find?, List.getLast?_eq_getLast _ hne]

theorem first_last_elements_witness :
    (from_container [(4 : Int), 5, 6, 1, 2, 3, 7, 8, 9]).Yields [4, 5, 6, 1, 2, 3, 7, 8, 9] ∧
      (∃ x ∈ [(4 : Int), 5, 6, 1, 2, 3, 7, 8, 9], (fun x => x % 2 == 1) x = true) ∧
      ∃ W, (from_container [(4 : Int), 5, 6, 1, 2, 3, 7, 8, 9]).where_
          (fun x => x % 2 == 1) 10 = .ok W ∧
        W.first = .ok 5 ∧ W.last 10 = .ok 9 := by
  have hex : ∃ x ∈ [(4 : Int), 5, 6, 1, 2, 3, 7, 8, 9], (fun x => x % 2 == 1) x = true :=
    ⟨5, by decide, by decide⟩
  obtain ⟨W, u, v, hW, hu, h1, hv, h2⟩ :=
    (first_last_elements (from_container [(4 : Int), 5, 6, 1, 2, 3, 7, 8, 9])
      [4, 5, 6, 1, 2, 3, 7, 8, 9] (fun x => x % 2 == 1) (from_container_yields _) 10
      (by decide)).2 hex
  have hu5 : u = 5 := by
    have : [(4 : Int), 5, 6, 1, 2, 3, 7, 8, 9].find? (fun x => x % 2 == 1) = some 5 := by decide
    rw [this] at hu
    exact (Option.some.inj hu).symm
  have hv9 : v = 9 := by
    have : [(4 : Int), 5, 6, 1, 2, 3, 7, 8, 9].reverse.find? (fun x => x % 2 == 1) = some 9 := by
      decide
    rw [this] at hv
    exact (Option.some.inj hv).symm
  exact ⟨from_container_yields _, hex, W, hW, by rw [h1, hu5], by rw [h2, hv9]⟩

/-- C16: for a sequence `S` of integers yielding a non-empty `l` (unbounded
    integers, so no overflow), `sum()` returns the arithmetic sum of `l`, `max()`
    returns an element of `l` that is `≥` every element and `min()` an element of
    `l` that is `≤` every element. -/
theorem sum_max_min {I : Type} (S : enumerable I Int) (l : List Int) (hne : l ≠ [])
    (hS : S.Yields l) (fuel : Nat) (hf : l.length < fuel) :
    S.sum fuel = .ok l.sum ∧
      (∃ M, S.max fuel = .ok M ∧ M ∈ l ∧ ∀ x ∈ l, x ≤ M) ∧
      (∃ m, S.min fuel = .ok m ∧ m ∈ l ∧ ∀ x ∈ l, m ≤ x) := by
  have hw := ((yields_iff_walk S l).1 hS).2
  cases l with
  | nil => exact absurd rfl hne
  | cons x xs =>
    have hxs : xs.length < fuel := by simp at hf; omega
    have h1 : S.sum fuel = .ok (xs.foldl (fun left right => left + right) x) :=
      aggregate_of_walk S _ x xs hw fuel hxs
    have h2 : S.max fuel = .ok (xs.foldl (fun left right => std_max left right) x) :=
      aggregate_of_walk S _ x xs hw fuel hxs
    have h3 : S.min fuel = .ok (xs.foldl (fun left right => std_min left right) x) :=
      aggregate_of_walk S _ x xs hw fuel hxs
    obtain ⟨hM1, hM2, hM3⟩ := foldl_std_max xs x
    obtain ⟨hm1, hm2, hm3⟩ := foldl_std_min xs x
    refine ⟨by rw [h1, foldl_add_eq_sum]; simp, ⟨_, h2, ?_, ?_⟩, ⟨_, h3, ?_, ?_⟩⟩
    · rcases hM1 with h | h
      · rw [h]; exact List.mem_cons_self _ _
      · exact List.mem_cons_of_mem _ h
    · intro y hy
      rcases List.mem_cons.1 hy with h | h
      · rw [h]; exact hM2
      · exact hM3 y h
    · rcases hm1 with h | h
      · rw [h]; exact List.mem_cons_self _ _
      · exact List.mem_cons_of_mem _ h
    · intro y hy
      rcases List.mem_cons.1 hy with h | h
      · rw [h]; exact hm2
      · exact hm3 y h

theorem sum_max_min_witness :
    [(5 : Int), 1, 3, 7, 9] ≠ [] ∧ (from_container [(5 : Int), 1, 3, 7, 9]).Yields [5, 1, 3, 7, 9] ∧
      [(5 : Int), 1, 3, 7, 9].length < 6 ∧
      (from_container [(5 : Int), 1, 3, 7, 9]).sum 6 = .ok 25 := by
  have h := (sum_max_min (from_container [(5 : Int), 1, 3, 7, 9]) [5, 1, 3, 7, 9] (by decide)
    (from_container_yields _) 6 (by decide)).1
  exact ⟨by decide, from_container_yields _, by decide, by rw [h]; rfl⟩

theorem takeWhile_longest {α : Type} (p : α → Bool) (l : List α) :
    ∀ q t : List α, l = q ++ t → (∀ x ∈ q, p x = true) →
      q.length ≤ (l.takeWhile p).length := by
  induction l with
  | nil =>
    intro q t h _
    have : q = [] := (List.append_eq_nil.1 h.symm).1
    simp [this]
  | cons a l ih =>
    intro q t h hq
    cases q with
    | nil => simp
    | cons b q =>
      simp only [List.cons_append, List.cons.injEq] at h
      obtain ⟨hab, hl⟩ := h
      have hpa : p a = true := by rw [hab]; exact hq b (List.mem_cons_self _ _)
      rw [List.takeWhile_cons_of_pos hpa]
      have := ih q t hl (fun x hx => hq x (List.mem_cons_of_mem _ hx))
      simpa using this

/-- C17: for every sequence built from containers by a chain of `select`,
    `where`, `take` and `concat`, the chain is constructed and, for every large
    enough loop bound, `count()` equals the number of elements `push_back`
    yields and `empty()` is true exactly when `count()` is `0`.  For a sequence
    `S` yielding `l` and `S2` yielding `l2`: `S.where( p ).empty()` holds iff no
    element of `l` satisfies `p`, `S.take( 0 ).empty()` holds, and
    `S.concat( S2 ).empty()` holds iff `l` and `l2` are both empty. -/
theorem count_and_empty {α I1 I2 : Type} (c : Chain α) (S : enumerable I1 α) (l : List α)
    (S2 : enumerable I2 α) (l2 : List α) (p : α → Bool) (hS : S.Yields l)
    (hS2 : S2.Yields l2) (fuel : Nat) (hf : l.length < fuel) :
    (∃ fuel0, ∀ k : Nat, ∃ T r, c.build (fuel0 + k) = .ok T ∧
        T.push_back (fuel0 + k) [] = .ok r ∧ T.count (fuel0 + k) = .ok r.length ∧
        (T.empty = true ↔ T.count (fuel0 + k) = .ok 0)) ∧
      (∃ W, S.where_ p fuel = .ok W ∧ (W.empty = true ↔ ∀ x ∈ l, p x = false)) ∧
      (S.take 0).empty = true ∧
      ((S.concat S2).empty = true ↔ l = [] ∧ l2 = []) := by
  refine ⟨?_, ?_, ?_, ?_⟩
  · obtain ⟨r, fuel0, hlt, h⟩ := chain_yields c
    refine ⟨fuel0, fun k => ?_⟩
    obtain ⟨T, hT, hY⟩ := h k
    have hc := yields_count T r hY (fuel0 + k) (by omega)
    refine ⟨T, r, hT, by simpa using yields_push_back T r hY (fuel0 + k) (by omega) [], hc, ?_⟩
    rw [empty_iff_of_yields T r hY, hc]
    constructor
    · intro h0; rw [h0]; rfl
    · intro h0
      have : r.length = 0 := by simpa using h0
      exact List.length_eq_zero.1 this
  · obtain ⟨W, hW, hY⟩ := where_yields S p l hS fuel hf
    refine ⟨W, hW, ?_⟩
    rw [empty_iff_of_yields W _ hY]
    simp [List.filter_eq_nil_iff]
  · have hY := take_yields S 0 (le_refl _) l hS
    exact (empty_iff_of_yields _ _ hY).2 (by simp)
  · rw [empty_iff_of_yields _ _ (concat_yields S S2 l l2 hS hS2)]
    simp

theorem count_and_empty_witness :
    (from_container [(4 : Int), 5, 6]).Yields [4, 5, 6] ∧
      (from_container ([] : List Int)).Yields [] ∧ [(4 : Int), 5, 6].length < 4 ∧
      (∃ fuel0, ∀ k : Nat, ∃ T r,
        (Chain.take (Chain.where_ (Chain.source [(4 : Int), 5, 6]) (fun x => x % 2 == 1)) 1).build
          (fuel0 + k) = .ok T ∧
        T.push_back (fuel0 + k) [] = .ok r ∧ T.count (fuel0 + k) = .ok r.length ∧
        (T.empty = true ↔ T.count (fuel0 + k) = .ok 0)) ∧
      (∃ W, (from_container [(4 : Int), 5, 6]).where_ (fun x => decide (x < 0)) 4 = .ok W ∧
        (W.empty = true ↔ ∀ x ∈ [(4 : Int), 5, 6], (fun x => decide (x < 0)) x = false)) ∧
      ((from_container [(4 : Int), 5, 6]).take 0).empty = true ∧
      (((from_container [(4 : Int), 5, 6]).concat (from_container ([] : List Int))).empty = true ↔
        [(4 : Int), 5, 6] = [] ∧ ([] : List Int) = []) := by
  have h := count_and_empty
    (Chain.take (Chain.where_ (Chain.source [(4 : Int), 5, 6]) (fun x => x % 2 == 1)) 1)
    (from_container [(4 : Int), 5, 6]) [4, 5, 6] (from_container ([] : List Int)) []
    (fun x => decide (x < 0)) (from_container_yields _) (from_container_yields _) 4 (by decide)
  exact ⟨from_container_yields _, from_container_yields _, by decide, h.1, h.2.1, h.2.2.1,
    h.2.2.2⟩

/-- C18: for a sequence `S` yielding `l` and a default `v`,
    `first_or_default( v )` and `last_or_default( v )` return `v` when `l` is
    empty and the first, respectively the last, element of `l` otherwise; in both
    cases they return a value. -/
theorem or_default_total {I α : Type} (S : enumerable I α) (l : List α) (v : α)
    (hS : S.Yields l) (fuel : Nat) (hf : l.length < fuel) :
    (l = [] → S.first_or_default v = .ok v ∧ S.last_or_default v fuel = .ok v) ∧
      (∀ h : l ≠ [],
        S.first_or_default v = .ok (l.head h) ∧ S.last_or_default v fuel = .ok (l.getLast h)) := by
  have hw := ((yields_iff_walk S l).1 hS).2
  constructor
  · intro hnil
    have he : S.empty = true := (empty_iff_of_yields S l hS).2 hnil
    simp [enumerable.first_or_default, enumerable.last_or_default, he]
  · intro h
    have hlast := last_of_walk S l h hw fuel hf
    cases l with
    | nil => exact absurd rfl h
    | cons x xs =>
      have h1 : S.ops.eq S._begin S._end = false := hw.1
      have h2 : S.ops.deref S._begin = .ok x := hw.2.1
      refine ⟨by simp [enumerable.first_or_default, enumerable.empty, h1, h2], ?_⟩
      simpa [enumerable.last, enumerable.last_or_default, enumerable.empty, h1] using hlast

theorem or_default_total_witness :
    (from_container ([] : List Int)).Yields [] ∧ ([] : List Int).length < 1 ∧
      (from_container ([] : List Int)).first_or_default 7 = .ok 7 ∧
      (from_container ([] : List Int)).last_or_default 7 1 = .ok 7 := by
  have h := (or_default_total (from_container ([] : List Int)) [] 7 (from_container_yields _) 1
    (by decide)).1 rfl
  exact ⟨from_container_yields _, by decide, h.1, h.2⟩

/-! ## take_while and skip_while -/

/-- C19: for a sequence `S` yielding `l` and a predicate `p` that fails on at
    least one element of `l`, `S.take_while( p )` is constructed and
    materializing it returns `l.takeWhile p` without running into an end
    dereference: a leading part of `l` whose elements all satisfy `p` and that is
    at least as long as every other such leading part (empty when `p` fails on
    the first element). -/
theorem take_while_materializes {I α : Type} (S : enumerable I α) (l : List α)
    (p : α → Bool) (hS : S.Yields l) (hex : ∃ y ∈ l, p y = false) (fuel : Nat)
    (hf : l.length < fuel) :
    (∃ T, S.take_while p = .ok T ∧ T.push_back fuel [] = .ok (l.takeWhile p)) ∧
      (∃ t, l = l.takeWhile p ++ t) ∧ (∀ x ∈ l.takeWhile p, p x = true) ∧
      (∀ q t : List α, l = q ++ t → (∀ x ∈ q, p x = true) →
        q.length ≤ (l.takeWhile p).length) := by
  obtain ⟨T, hT, hY⟩ := take_while_yields S p l hS hex
  have hlen : (l.takeWhile p).length < fuel := by
    have : (l.takeWhile p).length ≤ l.length := by
      have h := congrArg List.length (List.takeWhile_append_dropWhile p l)
      simp only [List.length_append] at h
      omega
    omega
  exact ⟨⟨T, hT, by simpa using yields_push_back T _ hY fuel hlen []⟩,
    ⟨l.dropWhile p, (List.takeWhile_append_dropWhile p l).symm⟩,
    fun x hx => List.mem_takeWhile_imp hx, takeWhile_longest p l⟩

theorem take_while_materializes_witness :
    (from_container [(4 : Int), 5, 6, 1, 2, 3, 7, 8, 9]).Yields [4, 5, 6, 1, 2, 3, 7, 8, 9] ∧
      (∃ y ∈ [(4 : Int), 5, 6, 1, 2, 3, 7, 8, 9], (fun x => decide (x < 7)) y = false) ∧
      ∃ T, (from_container [(4 : Int), 5, 6, 1, 2, 3, 7, 8, 9]).take_while
          (fun x => decide (x < 7)) = .ok T ∧
        T.push_back 10 [] = .ok [4, 5, 6, 1, 2, 3] := by
  have hex : ∃ y ∈ [(4 : Int), 5, 6, 1, 2, 3, 7, 8, 9], (fun x => decide (x < 7)) y = false :=
    ⟨7, by decide, by decide⟩
  obtain ⟨T, h1, h2⟩ := (take_while_materializes
    (from_container [(4 : Int), 5, 6, 1, 2, 3, 7, 8, 9]) [4, 5, 6, 1, 2, 3, 7, 8, 9]
    (fun x => decide (x < 7)) (from_container_yields _) hex 10 (by decide)).1
  exact ⟨from_container_yields _, hex, T, h1, by rw [h2]; rfl⟩

/-- C20: for a sequence `S` yielding `l` and a predicate `p`,
    `S.skip_while( p )` is constructed and materializing it returns `l.tail`
    (`l` without its first element) when `l` has a first element and `p` holds on
    it, and all of `l` otherwise; at most one leading element is removed, whatever
    the length of the leading run on which `p` holds. -/
theorem skip_while_materializes {I α : Type} (S : enumerable I α) (l : List α)
    (p : α → Bool) (hS : S.Yields l) (fuel : Nat) (hf : l.length < fuel) :
    ∃ K r, S.skip_while p = .ok K ∧ K.push_back fuel [] = .ok r ∧
      r = (if l.head?.map p = some true then l.tail else l) ∧
      l.length ≤ r.length + 1 := by
  obtain ⟨K, hK, hY⟩ := skip_while_yields S p l hS
  have hlen : l.length ≤ (if l.head?.map p = some true then l.tail else l).length + 1 ∧
      (if l.head?.map p = some true then l.tail else l).length ≤ l.length := by
    cases l with
    | nil => simp
    | cons x xs => by_cases hp : p x = true <;> simp [hp]
  exact ⟨K, _, hK, by simpa using yields_push_back K _ hY fuel (by omega) [], rfl, hlen.1⟩

theorem skip_while_materializes_witness :
    (from_container [(1 : Int), 2, 3, 7]).Yields [1, 2, 3, 7] ∧
      [(1 : Int), 2, 3, 7].length < 5 ∧
      ∃ K, (from_container [(1 : Int), 2, 3, 7]).skip_while (fun x => decide (x < 3)) = .ok K ∧
        K.push_back 5 [] = .ok [2, 3, 7] := by
  obtain ⟨K, r, h1, h2, h3, _⟩ := skip_while_materializes (from_container [(1 : Int), 2, 3, 7])
    [1, 2, 3, 7] (fun x => decide (x < 3)) (from_container_yields _) 5 (by decide)
  exact ⟨from_container_yields _, by decide, K, h1, by rw [h2, h3]; rfl⟩

/-! ## Drains and the previous contents of the sink -/

theorem foldl_append_singleton {α : Type} (l : List α) :
    ∀ c : List α, l.foldl (fun c x => c ++ [x]) c = c ++ l := by
  induction l with
  | nil => intro c; simp
  | cons x xs ih => intro c; simp [ih]

theorem group_by_append {I α : Type} (S : enumerable I α) (l : List α) (hS : S.Yields l)
    (P : List α) (fuel : Nat) (hf : l.length < fuel) :
    S.group_by P (fun c x => c ++ [x]) fuel = .ok (P ++ l, from_container (P ++ l)) := by
  have hw := ((yields_iff_walk S l).1 hS).2
  simp [enumerable.group_by,
    drain_loop_of_walk S.ops S._end (fun (c : List α) x => c ++ [x]) l S._begin P fuel hw hf,
    foldl_append_singleton, bind, Except.bind, pure, Except.pure]

theorem order_by_append {I α : Type} (S : enumerable I α) (l : List α) (hS : S.Yields l)
    (P : List α) (fuel : Nat) (hf : l.length < fuel) :
    S.order_by P (fun c x => c ++ [x]) (fun c => c) fuel =
      .ok (P ++ l, from_container (P ++ l)) := by
  have hw := ((yields_iff_walk S l).1 hS).2
  simp [enumerable.order_by,
    drain_loop_of_walk S.ops S._end (fun (c : List α) x => c ++ [x]) l S._begin P fuel hw hf,
    foldl_append_singleton, bind, Except.bind, pure, Except.pure]

/-- C21: `group_by`, `order_by` with an identity finalize and `join` never clear
    the sink.  For a sequence `S` yielding `l`, a right sequence `R` yielding `r`
    and sequence sinks already holding `P` (respectively `P2`), with appending
    closures, each call leaves the sink as the old contents followed by the newly
    inserted elements and returns a sequence that materializes to that whole
    list.  Calling the same drain a second time on the sink the first call left
    puts the drained elements into the result twice. -/
theorem drains_keep_sink {I1 I2 α β κ γ : Type} [BEq κ] (S : enumerable I1 α)
    (R : enumerable I2 β) (l : List α) (r : List β) (P : List α) (P2 : List γ)
    (kl : α → κ) (kr : β → κ) (comb : α → β → γ) (hS : S.Yields l) (hR : R.Yields r)
    (fuel : Nat) (hl : l.length < fuel) (hr : r.length < fuel) :
    (∃ Q, S.group_by P (fun c x => c ++ [x]) fuel = .ok (P ++ l, Q) ∧
        ∀ j : Nat, Q.push_back ((P ++ l).length + 1 + j) [] = .ok (P ++ l)) ∧
      (∃ Q, S.order_by P (fun c x => c ++ [x]) (fun c => c) fuel = .ok (P ++ l, Q) ∧
        ∀ j : Nat, Q.push_back ((P ++ l).length + 1 + j) [] = .ok (P ++ l)) ∧
      (∃ c Q, S.join P2 R kl kr (fun c x y => c ++ [comb x y]) fuel = .ok (c, Q) ∧
        c = P2 ++ l.flatMap (fun x => (r.filter (fun y => kl x == kr y)).map (comb x)) ∧
        ∀ j : Nat, Q.push_back (c.length + 1 + j) [] = .ok c) ∧
      (∃ c Q, (do
          let first ← S.group_by P (fun c x => c ++ [x]) fuel
          S.group_by first.1 (fun c x => c ++ [x]) fuel) = .ok (c, Q) ∧
        c = P ++ l ++ l ∧ ∀ j : Nat, Q.push_back (c.length + 1 + j) [] = .ok c) ∧
      (∃ c Q, (do
          let first ← S.order_by P (fun c x => c ++ [x]) (fun c => c) fuel
          S.order_by first.1 (fun c x => c ++ [x]) (fun c => c) fuel) = .ok (c, Q) ∧
        c = P ++ l ++ l ∧ ∀ j : Nat, Q.push_back (c.length + 1 + j) [] = .ok c) ∧
      (∃ c Q, (do
          let first ← S.join P2 R kl kr (fun c x y => c ++ [comb x y]) fuel
          S.join first.1 R kl kr (fun c x y => c ++ [comb x y]) fuel) = .ok (c, Q) ∧
        c = P2 ++ l.flatMap (fun x => (r.filter (fun y => kl x == kr y)).map (comb x)) ++
          l.flatMap (fun x => (r.filter (fun y => kl x == kr y)).map (comb x)) ∧
        ∀ j : Nat, Q.push_back (c.length + 1 + j) [] = .ok c) := by
  have hg := fun P => group_by_append S l hS P fuel hl
  have ho := fun P => order_by_append S l hS P fuel hl
  have hj := fun P2 => join_of_yields S R l r kl kr comb hS hR P2 fuel hl hr
  refine ⟨⟨_, hg P, fun j => from_container_push_back _ j⟩,
    ⟨_, ho P, fun j => from_container_push_back _ j⟩,
    ⟨_, _, hj P2, rfl, fun j => from_container_push_back _ j⟩,
    ⟨_, _, ?_, rfl, fun j => from_container_push_back _ j⟩,
    ⟨_, _, ?_, rfl, fun j => from_container_push_back _ j⟩,
    ⟨_, _, ?_, rfl, fun j => from_container_push_back _ j⟩⟩
  · simp only [hg P, bind, Except.bind]
    exact hg (P ++ l)
  · simp only [ho P, bind, Except.bind]
    exact ho (P ++ l)
  · simp only [hj P2, bind, Except.bind]
    exact hj _

theorem drains_keep_sink_witness :
    (from_container [(4 : Int), 5, 6]).Yields [4, 5, 6] ∧
      (from_container [(10 : Int), 20]).Yields [10, 20] ∧
      (∃ Q, (from_container [(4 : Int), 5, 6]).group_by [0] (fun c x => c ++ [x]) 4 =
        .ok ([0, 4, 5, 6], Q)) ∧
      (∃ Q, (from_container [(4 : Int), 5, 6]).order_by [0] (fun c x => c ++ [x])
        (fun c => c) 4 = .ok ([0, 4, 5, 6], Q)) ∧
      (∃ Q, (from_container [(4 : Int), 5, 6]).join [0] (from_container [(10 : Int), 20])
        (fun _ => true) (fun _ => true) (fun c x y => c ++ [x + y]) 4 =
        .ok ([0, 14, 24, 15, 25, 16, 26], Q)) ∧
      (∃ Q, (do
          let first ← (from_container [(4 : Int), 5, 6]).group_by [] (fun c x => c ++ [x]) 4
          (from_container [(4 : Int), 5, 6]).group_by first.1 (fun c x => c ++ [x]) 4) =
        .ok ([4, 5, 6, 4, 5, 6], Q) ∧ Q.push_back 7 [] = .ok [4, 5, 6, 4, 5, 6]) := by
  have h := drains_keep_sink (from_container [(4 : Int), 5, 6])
    (from_container [(10 : Int), 20]) [4, 5, 6] [10, 20] [0] [0]
    (fun _ => true) (fun _ => true) (fun x y => x + y)
    (from_container_yields _) (from_container_yields _) 4 (by decide) (by decide)
  have h0 := drains_keep_sink (from_container [(4 : Int), 5, 6])
    (from_container [(10 : Int), 20]) [4, 5, 6] [10, 20] [] [0]
    (fun _ => true) (fun _ => true) (fun x y => x + y)
    (from_container_yields _) (from_container_yields _) 4 (by decide) (by decide)
  obtain ⟨Q1, hQ1, _⟩ := h.1
  obtain ⟨Q2, hQ2, _⟩ := h.2.1
  obtain ⟨c3, Q3, hQ3, hc3, _⟩ := h.2.2.1
  obtain ⟨c4, Q4, hQ4, hc4, hm4⟩ := h0.2.2.2.1
  refine ⟨from_container_yields _, from_container_yields _, ⟨Q1, hQ1⟩, ⟨Q2, hQ2⟩,
    ⟨Q3, ?_⟩, ⟨Q4, ?_, ?_⟩⟩
  · rw [hQ3, hc3]; rfl
  · rw [hQ4, hc4]; rfl
  · have := hm4 0
    rw [hc4] at this
    exact this

end linq
